import Mathlib

/-!
Verification of the radix-heap library (`src/lib.rs` of the `radix-heap`
crate): a monotone max-priority queue.  Keys are modelled as `W`-bit
unsigned machine integers, i.e. natural numbers `< 2 ^ W` (the crate's
`u8/u16/u32/u64/usize` instances correspond to `W = 8, 16, 32, 64`);
values are an arbitrary type `V`.  Every definition below is a direct
translation of the corresponding Rust item, except where a doc comment
says `Modelled from the spec:`.
-/

namespace RadixHeap

/-! ## The `Radix` metric (trait `Radix`, `lib.rs` lines 525-632) -/

/-- Fuel-indexed bit length, structurally recursive so that the kernel can
evaluate it.  `bitLenAux fuel n` equals the position of the highest set bit
of `n` plus one, provided `n ≤ fuel`. -/
def bitLenAux : Nat → Nat → Nat
  | 0, _ => 0
  | _ + 1, 0 => 0
  | fuel + 1, n + 1 => bitLenAux fuel ((n + 1) / 2) + 1

/-- Number of bits needed to represent `n` (`0` for `n = 0`). -/
def bitLength (n : Nat) : Nat := bitLenAux n n

/-- Rust's `uN::leading_zeros` on a `W`-bit word: `W` minus the bit length. -/
def leadingZeros (W n : Nat) : Nat := W - bitLength n

/-- `Radix::radix_similarity` for the fixed-width integer instances
(macro `radix_int_impl`): `(self ^ other).leading_zeros()`. -/
def radix_similarity (W a b : Nat) : Nat := leadingZeros W (a ^^^ b)

/-- The provided method `Radix::radix_distance`:
`RADIX_BITS - radix_similarity(self, other)`. -/
def radix_distance (W a b : Nat) : Nat := W - radix_similarity W a b

/-- A key type together with its `Radix` implementation: the
`radix_similarity` function and the `RADIX_BITS` constant. -/
structure RadixT (K : Type u) where
  sim : K → K → Nat
  bits : Nat

/-- The provided `radix_distance` method, shared by every instance. -/
def RadixT.dist (r : RadixT K) (a b : K) : Nat := r.bits - r.sim a b

/-- The instance for a `W`-bit unsigned integer (`radix_int_impl!`). -/
def intRadix (W : Nat) : RadixT Nat :=
  { sim := fun a b => radix_similarity W a b, bits := W }

/-- The instance `impl Radix for ()`: similarity `0`, `RADIX_BITS = 0`. -/
def unitRadix : RadixT Unit :=
  { sim := fun _ _ => 0, bits := 0 }

/-- The instance for `Reverse<T>` (`radix_wrapper_impl!`): delegates to the
inner type's similarity and bit count. -/
def reverseRadix (r : RadixT K) : RadixT K :=
  { sim := r.sim, bits := r.bits }

/-- The instance for `Wrapping<T>` (`radix_wrapper_impl!`): delegates to the
inner type's similarity and bit count. -/
def wrappingRadix (r : RadixT K) : RadixT K :=
  { sim := r.sim, bits := r.bits }

/-- The instance for `NotNaN<f32>` / `NotNaN<f64>` (`radix_float_impl!`):
the float is represented by its IEEE bit pattern (`self.bits()`, a `W`-bit
word) and the metric delegates to the integer instance on those bits. -/
def floatRadix (W : Nat) : RadixT Nat :=
  { sim := fun a b => (intRadix W).sim a b, bits := (intRadix W).bits }

/-- The instance for pairs from `radix_tuple_impl!`: walk the components,
accumulating similarity, returning early at the first component whose
similarity is below its own `RADIX_BITS`. -/
def pairRadix (r₁ : RadixT A) (r₂ : RadixT B) : RadixT (A × B) where
  sim a b :=
    let s₁ := r₁.sim a.1 b.1
    if s₁ < r₁.bits then s₁ else
    let s₂ := r₂.sim a.2 b.2
    if s₂ < r₂.bits then s₁ + s₂ else s₁ + s₂
  bits := r₁.bits + r₂.bits

/-- The instance for triples from `radix_tuple_impl!`. -/
def tripleRadix (r₁ : RadixT A) (r₂ : RadixT B) (r₃ : RadixT C) :
    RadixT (A × B × C) where
  sim a b :=
    let s₁ := r₁.sim a.1 b.1
    if s₁ < r₁.bits then s₁ else
    let s₂ := r₂.sim a.2.1 b.2.1
    if s₂ < r₂.bits then s₁ + s₂ else
    let s₃ := r₃.sim a.2.2 b.2.2
    if s₃ < r₃.bits then s₁ + s₂ + s₃ else s₁ + s₂ + s₃
  bits := r₁.bits + r₂.bits + r₃.bits

/-- The lexicographic walk described by the spec (§4.4.1): given the list of
per-component `(similarity, RADIX_BITS)` pairs in order, accumulate the
similarities and stop at the first component whose similarity is below its
own bit width. -/
def lexWalk : List (Nat × Nat) → Nat
  | [] => 0
  | (s, w) :: rest => if s < w then s else s + lexWalk rest

/-! ## Buckets (`struct Bucket`, `lib.rs` lines 48-100) -/

/-- `Bucket<K, V>`: a cached maximum key and a growable vector of entries
(push and pop act on the back of `elems`). -/
structure Bucket (V : Type u) where
  max : Option Nat
  elems : List (Nat × V)

/-- `Bucket::default()`: empty vector, no cached max. -/
def Bucket.empty : Bucket V := { max := none, elems := [] }

/-- `Bucket::is_empty`. -/
def Bucket.is_empty (b : Bucket V) : Bool := b.elems.isEmpty

/-- `Bucket::push`: `self.max = max(self.max, Some(key))` followed by a
vector push. -/
def Bucket.push (b : Bucket V) (key : Nat) (value : V) : Bucket V :=
  { max := some (match b.max with | none => key | some m => Nat.max m key),
    elems := b.elems ++ [(key, value)] }

/-- `Bucket::pop`: `Vec::pop`, removing the most recently pushed entry. -/
def Bucket.pop (b : Bucket V) : Option ((Nat × V) × Bucket V) :=
  match b.elems.getLast? with
  | none => none
  | some e => some (e, { b with elems := b.elems.dropLast })

/-- `Bucket::clear` (also the state left behind by `Bucket::drain`): resets
the cached max and empties the vector. -/
def Bucket.clear (_b : Bucket V) : Bucket V := { max := none, elems := [] }

/-! ## The heap (`struct RadixHeapMap`, `lib.rs` lines 125-320) -/

/-- `RadixHeapMap<K, V>` for `W`-bit integer keys: the length counter, the
optional top key, the `RADIX_BITS + 1` buckets, and the `initial` bucket
holding entries pushed before a top key is known. -/
structure HeapMap (V : Type u) where
  len : Nat
  top : Option Nat
  buckets : List (Bucket V)
  initial : Bucket V

/-- Replace the element at index `i` (no-op when out of range), used to
model in-place mutation of `self.buckets[i]`. -/
def modifyIdx : List α → Nat → (α → α) → List α
  | [], _, _ => []
  | a :: as, 0, f => f a :: as
  | a :: as, i + 1, f => a :: modifyIdx as i f

/-- The bucket at index `i` (`self.buckets[i]`). -/
def bucketAt (h : HeapMap V) (i : Nat) : Bucket V :=
  h.buckets.getD i Bucket.empty

/-- `RadixHeapMap::new()`: no top, `RADIX_BITS + 1` default buckets. -/
def new (V : Type u) (W : Nat) : HeapMap V :=
  { len := 0, top := none,
    buckets := List.replicate (W + 1) Bucket.empty, initial := Bucket.empty }

/-- `RadixHeapMap::new_at(top)`. -/
def new_at (V : Type u) (W : Nat) (top : Nat) : HeapMap V :=
  { len := 0, top := some top,
    buckets := List.replicate (W + 1) Bucket.empty, initial := Bucket.empty }

/-- `RadixHeapMap::clear`. -/
def clear (h : HeapMap V) : HeapMap V :=
  { len := 0, top := none,
    buckets := h.buckets.map Bucket.clear, initial := h.initial.clear }

/-- `RadixHeapMap::clear_to(top)`. -/
def clear_to (h : HeapMap V) (top : Nat) : HeapMap V :=
  { clear h with top := some top }

/-- `RadixHeapMap::push_nocheck`: append the entry to the bucket at the
key's radix distance from `top`. -/
def push_nocheck (W : Nat) (h : HeapMap V) (key : Nat) (value : V)
    (top : Nat) : HeapMap V :=
  { h with
    buckets := modifyIdx h.buckets (radix_distance W key top)
      (fun b => b.push key value) }

/-- The loop inside `RadixHeapMap::repush_bucket`: re-push every drained
entry with the new top key. -/
def repush_entries (W : Nat) (h : HeapMap V) (top : Nat)
    (l : List (Nat × V)) : HeapMap V :=
  l.foldl (fun h kv => push_nocheck W h kv.1 kv.2 top) h

/-- `RadixHeapMap::repush_bucket` applied to `self.buckets[i]`: swap the
bucket out for an empty one, promote its cached max to be the new top, and
re-push its entries.  When the cached max is absent the Rust code panics
(`expect("Expected non-empty bucket")`) with the bucket already swapped
out; that branch is unreachable from well-formed states
(see `constrain_spec_bucket`). -/
def repush_bucket_at (W : Nat) (h : HeapMap V) (i : Nat) : HeapMap V :=
  match (bucketAt h i).max with
  | none =>
    { h with buckets := modifyIdx h.buckets i (fun _ => Bucket.empty) }
  | some top =>
    repush_entries W
      { h with buckets := modifyIdx h.buckets i (fun _ => Bucket.empty),
               top := some top }
      top (bucketAt h i).elems

/-- `RadixHeapMap::repush_bucket` applied to `self.initial`. -/
def repush_initial (W : Nat) (h : HeapMap V) : HeapMap V :=
  match h.initial.max with
  | none => { h with initial := Bucket.empty }
  | some top =>
    repush_entries W { h with initial := Bucket.empty, top := some top }
      top h.initial.elems

/-- `self.buckets.iter().enumerate().find(|&(_, bucket)| !bucket.is_empty())
.map(|(i, _)| i)`: index of the first nonempty bucket. -/
def findNonempty : List (Bucket V) → Option Nat
  | [] => none
  | b :: bs => if !b.is_empty then some 0 else (findNonempty bs).map (· + 1)

/-- `RadixHeapMap::constrain` (`lib.rs` lines 233-251). -/
def constrain (W : Nat) (h : HeapMap V) : HeapMap V :=
  match h.top with
  | some _ =>
    match findNonempty h.buckets with
    | some index => if index ≠ 0 then repush_bucket_at W h index else h
    | none => h
  | none => if !h.initial.is_empty then repush_initial W h else h

/-- The error raised by `push` when the key exceeds the current top key
(the `assert!` in `lib.rs` line 224, spec §7's `OutOfOrderKey`). -/
inductive PushError where
  | OutOfOrderKey
deriving DecidableEq

/-- `RadixHeapMap::push` (`lib.rs` lines 216-231): reject keys above the
current top, otherwise bucket the entry (or stash it in `initial` when no
top is set) and increment `len`. -/
def push (W : Nat) (h : HeapMap V) (key : Nat) (value : V) :
    Except PushError (HeapMap V) :=
  match h.top with
  | some top =>
    if key ≤ top then
      .ok { push_nocheck W h key value top with len := h.len + 1 }
    else
      .error .OutOfOrderKey
  | none =>
    .ok { h with initial := h.initial.push key value, len := h.len + 1 }

/-- `RadixHeapMap::pop` (`lib.rs` lines 253-275): constrain, then pop the
most recently inserted entry of `buckets[0]`, decrementing `len` iff an
entry was returned.  The mutated heap is returned alongside the result. -/
def pop (W : Nat) (h : HeapMap V) : Option (Nat × V) × HeapMap V :=
  match (bucketAt (constrain W h) 0).pop with
  | none => (none, constrain W h)
  | some (kv, b0) =>
    (some kv,
      { constrain W h with
        buckets := modifyIdx (constrain W h).buckets 0 (fun _ => b0),
        len := (constrain W h).len - 1 })

/-- Modelled from the spec: the spec (§4.3, §6) describes a public
`peek()` operation, but no such function exists anywhere in `src/`;
following the spec's words: if `buckets[0]` is empty, call `constrain()`
first; then return the last element of `buckets[0]` without removing it. -/
def peek (W : Nat) (h : HeapMap V) : Option (Nat × V) × HeapMap V :=
  if (bucketAt h 0).is_empty then
    ((bucketAt (constrain W h) 0).elems.getLast?, constrain W h)
  else
    ((bucketAt h 0).elems.getLast?, h)

/-! ## Operation sequences and observables -/

/-- A public mutating heap operation (clearing excluded). -/
inductive HeapOp (V : Type u) where
  | push (k : Nat) (v : V)
  | pop

/-- Run one operation; a failed `push` (a panic in Rust) leaves the heap
unchanged. -/
def applyOp (W : Nat) (h : HeapMap V) : HeapOp V → HeapMap V
  | .push k v => match push W h k v with | .ok h' => h' | .error _ => h
  | .pop => (pop W h).2

/-- Run a sequence of operations. -/
def runOps (W : Nat) (h : HeapMap V) (ops : List (HeapOp V)) : HeapMap V :=
  ops.foldl (applyOp W) h

/-- Repeatedly pop until `None` (with enough fuel), collecting results. -/
def drainPops (W : Nat) : Nat → HeapMap V → List (Nat × V)
  | 0, _ => []
  | fuel + 1, h =>
    match pop W h with
    | (none, _) => []
    | (some kv, h') => kv :: drainPops W fuel h'

/-- All stored entries, in container order. -/
def allPairs (h : HeapMap V) : List (Nat × V) :=
  h.initial.elems ++ (h.buckets.map Bucket.elems).flatten

/-- The number of stored entries. -/
def entryCount (h : HeapMap V) : Nat := (allPairs h).length

/-- The values stored under key `k`, in container order. -/
def keyValues (k : Nat) (h : HeapMap V) : List V :=
  ((allPairs h).filter (fun kv => kv.1 = k)).map Prod.snd

/-! ## Bit-level lemmas about `bitLength` and `radix_distance` -/

theorem succ_div_two_le (n : Nat) : (n + 1) / 2 ≤ n := by
  have h1 : n + 1 ≤ 2 * n + 1 := by omega
  have h2 : (2 * n + 1) / 2 = n := by
    rw [Nat.mul_add_div (by omega)]
    norm_num
  calc (n + 1) / 2 ≤ (2 * n + 1) / 2 := Nat.div_le_div_right h1
    _ = n := h2

theorem bitLenAux_eq (n : Nat) : ∀ fuel fuel', n ≤ fuel → n ≤ fuel' →
    bitLenAux fuel n = bitLenAux fuel' n := by
  induction n using Nat.strong_induction_on with
  | _ n ih =>
    intro fuel fuel' hf hf'
    match n, fuel, fuel' with
    | 0, 0, 0 => rfl
    | 0, 0, _ + 1 => rfl
    | 0, _ + 1, 0 => rfl
    | 0, _ + 1, _ + 1 => rfl
    | n + 1, f + 1, f' + 1 =>
      show bitLenAux f ((n + 1) / 2) + 1 = bitLenAux f' ((n + 1) / 2) + 1
      have hd : (n + 1) / 2 ≤ n := succ_div_two_le n
      rw [ih ((n + 1) / 2) (by omega) f f' (by omega) (by omega)]

theorem bitLength_zero : bitLength 0 = 0 := rfl

theorem bitLength_succ (n : Nat) :
    bitLength (n + 1) = bitLength ((n + 1) / 2) + 1 := by
  show bitLenAux n ((n + 1) / 2) + 1 = bitLenAux ((n + 1) / 2) ((n + 1) / 2) + 1
  rw [bitLenAux_eq ((n + 1) / 2) n ((n + 1) / 2) (succ_div_two_le n) (le_refl _)]

theorem bitLength_le (n : Nat) : ∀ W, bitLength n ≤ W ↔ n < 2 ^ W := by
  induction n using Nat.strong_induction_on with
  | _ n ih =>
    intro W
    match n with
    | 0 => simp [bitLength_zero, Nat.pos_pow_of_pos]
    | n + 1 =>
      rw [bitLength_succ]
      match W with
      | 0 => simp
      | W + 1 =>
        have hd : (n + 1) / 2 ≤ n := succ_div_two_le n
        rw [Nat.add_le_add_iff_right, ih ((n + 1) / 2) (by omega) W,
          Nat.div_lt_iff_lt_mul (by omega), pow_succ]

theorem bitLength_eq_zero {n : Nat} : bitLength n = 0 ↔ n = 0 := by
  have h := bitLength_le n 0
  simp only [pow_zero, Nat.lt_one_iff] at h
  omega

theorem testBit_ge_bitLength {n i : Nat} (h : bitLength n ≤ i) :
    n.testBit i = false :=
  Nat.testBit_lt_two_pow ((bitLength_le n i).mp h)

theorem testBit_bitLength_pred (n : Nat) : ∀ _h : n ≠ 0,
    n.testBit (bitLength n - 1) = true := by
  induction n using Nat.strong_induction_on with
  | _ n ih =>
    intro hn
    match n, hn with
    | n + 1, _ =>
      rw [bitLength_succ]
      by_cases hq : (n + 1) / 2 = 0
      · have h1 : n = 0 := by omega
        subst h1
        decide
      · have hbl : bitLength ((n + 1) / 2) ≠ 0 := fun h => hq (bitLength_eq_zero.mp h)
        have hd : (n + 1) / 2 ≤ n := succ_div_two_le n
        have ihq := ih ((n + 1) / 2) (by omega) hq
        have hstep : bitLength ((n + 1) / 2) + 1 - 1
            = (bitLength ((n + 1) / 2) - 1) + 1 := by omega
        rw [hstep, Nat.testBit_succ]
        have hdiv : (n + 1) / 2 = (n + 1) / 2 := rfl
        exact ihq

theorem lt_two_pow_of_testBit_false {n j : Nat}
    (h : ∀ i, j ≤ i → n.testBit i = false) : n < 2 ^ j := by
  by_cases hn : n = 0
  · subst hn; exact Nat.pos_pow_of_pos j (by omega)
  · by_contra hlt
    have h1 : ¬ bitLength n ≤ j := fun hle => hlt ((bitLength_le n j).mp hle)
    have h2 : j ≤ bitLength n - 1 := by omega
    have h3 := h (bitLength n - 1) h2
    rw [testBit_bitLength_pred n hn] at h3
    exact Bool.noConfusion h3

theorem bitLength_two_pow_sub_one (W : Nat) : bitLength (2 ^ W - 1) = W := by
  have hle : bitLength (2 ^ W - 1) ≤ W := by
    rw [bitLength_le]
    have := Nat.pos_pow_of_pos W (show 0 < 2 by omega)
    omega
  match W with
  | 0 => simpa using hle
  | W + 1 =>
    have hgt : ¬ bitLength (2 ^ (W + 1) - 1) ≤ W := by
      rw [bitLength_le]
      have h1 : 2 ^ (W + 1) = 2 * 2 ^ W := by rw [pow_succ]; ring
      have h2 := Nat.pos_pow_of_pos W (show 0 < 2 by omega)
      omega
    omega

/-! Distance facts for `W`-bit words. -/

theorem radix_distance_eq {W a b : Nat} (ha : a < 2 ^ W) (hb : b < 2 ^ W) :
    radix_distance W a b = bitLength (a ^^^ b) := by
  have hx : a ^^^ b < 2 ^ W := Nat.xor_lt_two_pow ha hb
  have hbl : bitLength (a ^^^ b) ≤ W := (bitLength_le _ W).mpr hx
  unfold radix_distance radix_similarity leadingZeros
  exact Nat.sub_sub_self hbl

theorem radix_distance_self (W a : Nat) : radix_distance W a a = 0 := by
  unfold radix_distance radix_similarity leadingZeros
  rw [Nat.xor_self]
  simp [bitLength_zero]

theorem radix_distance_comm (W a b : Nat) :
    radix_distance W a b = radix_distance W b a := by
  unfold radix_distance radix_similarity
  rw [Nat.xor_comm]

theorem radix_distance_le (W a b : Nat) : radix_distance W a b ≤ W :=
  Nat.sub_le _ _

theorem radix_distance_eq_zero_iff {W a b : Nat} (ha : a < 2 ^ W)
    (hb : b < 2 ^ W) : radix_distance W a b = 0 ↔ a = b := by
  rw [radix_distance_eq ha hb, bitLength_eq_zero, Nat.xor_eq_zero]

theorem testBit_eq_of_dist_le {W x t : Nat} (hx : x < 2 ^ W) (ht : t < 2 ^ W)
    {j : Nat} (h : radix_distance W x t ≤ j) :
    ∀ i, j ≤ i → x.testBit i = t.testBit i := by
  intro i hi
  rw [radix_distance_eq hx ht] at h
  have hlt : x ^^^ t < 2 ^ i := by
    have h1 : x ^^^ t < 2 ^ j := (bitLength_le _ j).mp h
    have h2 : (2 : Nat) ^ j ≤ 2 ^ i := Nat.pow_le_pow_right (by omega) hi
    omega
  have h3 : (x ^^^ t).testBit i = false := Nat.testBit_lt_two_pow hlt
  rw [Nat.testBit_xor] at h3
  cases hx1 : x.testBit i <;> cases ht1 : t.testBit i <;>
    simp [hx1, ht1] at h3 ⊢

theorem testBit_ne_at_dist_pred {W x t j : Nat} (hx : x < 2 ^ W)
    (ht : t < 2 ^ W) (h : radix_distance W x t = j) (hj : j ≠ 0) :
    x.testBit (j - 1) ≠ t.testBit (j - 1) := by
  rw [radix_distance_eq hx ht] at h
  have hxor : x ^^^ t ≠ 0 := by
    intro h0
    rw [h0, bitLength_zero] at h
    exact hj h.symm
  have h1 := testBit_bitLength_pred (x ^^^ t) hxor
  rw [h] at h1
  rw [Nat.testBit_xor] at h1
  intro heq
  rw [heq] at h1
  cases t.testBit (j - 1) <;> simp at h1

/-- Among keys bounded by `t`, a strictly smaller radix distance to `t`
means a strictly larger key. -/
theorem key_lt_of_dist_lt {W x y t : Nat} (hx : x < 2 ^ W) (hy : y < 2 ^ W)
    (ht : t < 2 ^ W) (_hxt : x ≤ t) (hyt : y ≤ t)
    (h : radix_distance W x t < radix_distance W y t) : y < x := by
  set j := radix_distance W y t with hj
  have hj0 : j ≠ 0 := by omega
  have hyne := testBit_ne_at_dist_pred hy ht hj.symm hj0
  have hyab : ∀ i, j - 1 < i → y.testBit i = t.testBit i := fun i hi =>
    testBit_eq_of_dist_le hy ht (le_refl j) i (by omega)
  -- the differing bit must be set in `t` and clear in `y`, else `t < y`
  have hybit : y.testBit (j - 1) = false ∧ t.testBit (j - 1) = true := by
    cases hy1 : y.testBit (j - 1) <;> cases ht1 : t.testBit (j - 1)
    · rw [hy1, ht1] at hyne; simp at hyne
    · exact ⟨rfl, rfl⟩
    · exfalso
      have : t < y := Nat.lt_of_testBit (j - 1) ht1 hy1
        (fun i hi => (hyab i hi).symm)
      omega
    · rw [hy1, ht1] at hyne; simp at hyne
  have hxab : ∀ i, j - 1 ≤ i → x.testBit i = t.testBit i := fun i hi =>
    testBit_eq_of_dist_le hx ht (show radix_distance W x t ≤ j - 1 by omega) i hi
  refine Nat.lt_of_testBit (j - 1) hybit.1 ?_ ?_
  · rw [hxab (j - 1) (le_refl _)]; exact hybit.2
  · intro i hi
    rw [hyab i hi, hxab i (by omega)]

/-- Two entries of the same bucket (same nonzero distance `i` to `t`) are at
distance strictly less than `i` from each other. -/
theorem dist_lt_of_dist_eq {W x m t i : Nat} (hx : x < 2 ^ W)
    (hm : m < 2 ^ W) (ht : t < 2 ^ W) (hxd : radix_distance W x t = i)
    (hmd : radix_distance W m t = i) (hi : i ≠ 0) :
    radix_distance W x m < i := by
  have hbits : ∀ i', i - 1 ≤ i' → (x ^^^ m).testBit i' = false := by
    intro i' hi'
    rw [Nat.testBit_xor]
    by_cases hcase : i ≤ i'
    · rw [testBit_eq_of_dist_le hx ht (le_of_eq hxd) i' hcase,
        testBit_eq_of_dist_le hm ht (le_of_eq hmd) i' hcase]
      cases t.testBit i' <;> simp
    · have hii : i' = i - 1 := by omega
      subst hii
      have h1 := testBit_ne_at_dist_pred hx ht hxd hi
      have h2 := testBit_ne_at_dist_pred hm ht hmd hi
      cases hx1 : x.testBit (i - 1) <;> cases hm1 : m.testBit (i - 1) <;>
        cases ht1 : t.testBit (i - 1) <;> simp_all
  have hlt : x ^^^ m < 2 ^ (i - 1) := lt_two_pow_of_testBit_false hbits
  rw [radix_distance_eq hx hm]
  have := (bitLength_le (x ^^^ m) (i - 1)).mpr hlt
  omega

/-- An entry whose distance to `t` exceeds the distance of the new top `m`
to `t` keeps its distance when the reference changes from `t` to `m`. -/
theorem dist_stable_of_dist_lt {W x m t i j : Nat} (hx : x < 2 ^ W)
    (hm : m < 2 ^ W) (ht : t < 2 ^ W) (hxd : radix_distance W x t = j)
    (hmd : radix_distance W m t = i) (hij : i < j) :
    radix_distance W x m = j := by
  have hj0 : j ≠ 0 := by omega
  have hxne := testBit_ne_at_dist_pred hx ht hxd hj0
  have hmagree : m.testBit (j - 1) = t.testBit (j - 1) :=
    testBit_eq_of_dist_le hm ht (show radix_distance W m t ≤ j - 1 by omega)
      (j - 1) (le_refl _)
  have hbit : (x ^^^ m).testBit (j - 1) = true := by
    rw [Nat.testBit_xor, hmagree]
    cases hx1 : x.testBit (j - 1) <;> cases ht1 : t.testBit (j - 1) <;>
      simp_all
  have hup : ∀ i', j ≤ i' → (x ^^^ m).testBit i' = false := by
    intro i' hi'
    rw [Nat.testBit_xor,
      testBit_eq_of_dist_le hx ht (le_of_eq hxd) i' hi',
      testBit_eq_of_dist_le hm ht (show radix_distance W m t ≤ j by omega) i' hi']
    cases t.testBit i' <;> simp
  have hle : bitLength (x ^^^ m) ≤ j :=
    (bitLength_le _ j).mpr (lt_two_pow_of_testBit_false hup)
  have hge : ¬ bitLength (x ^^^ m) ≤ j - 1 := by
    intro hcon
    have := @testBit_ge_bitLength (x ^^^ m) (j - 1) hcon
    rw [hbit] at this
    exact Bool.noConfusion this
  rw [radix_distance_eq hx hm]
  omega

/-! ## Laws of the `Radix` metric (claims about §4.1 / §8 of the spec) -/

/-- The laws of `radix_similarity` for an instance, relative to a notion of
"bitwise-complementary" pairs: self-similarity is the full bit width,
similarity is symmetric, complementary keys have similarity `0`, and
similarity never exceeds the bit width. -/
def SimLaws (r : RadixT K) (c : K → K → Prop) : Prop :=
  (∀ a, r.sim a a = r.bits) ∧
  (∀ a b, r.sim a b = r.sim b a) ∧
  (∀ a b, c a b → r.sim a b = 0) ∧
  (∀ a b, r.sim a b ≤ r.bits)

/-- The distance-form laws claimed by the spec (§8 "Radix metric laws"):
`radix_distance(a, a) = 0`, symmetry, distance `RADIX_BITS` for
complementary keys, and `radix_distance = RADIX_BITS - radix_similarity`. -/
def DistLaws (r : RadixT K) (c : K → K → Prop) : Prop :=
  (∀ a, r.dist a a = 0) ∧
  (∀ a b, r.dist a b = r.dist b a) ∧
  (∀ a b, c a b → r.dist a b = r.bits) ∧
  (∀ a b, r.dist a b = r.bits - r.sim a b)

theorem distLaws_of_simLaws {r : RadixT K} {c : K → K → Prop}
    (h : SimLaws r c) : DistLaws r c := by
  obtain ⟨h1, h2, h3, _h4⟩ := h
  refine ⟨?_, ?_, ?_, fun a b => rfl⟩
  · intro a; unfold RadixT.dist; rw [h1]; omega
  · intro a b; unfold RadixT.dist; rw [h2]
  · intro a b hc; unfold RadixT.dist; rw [h3 a b hc]; omega

/-- `W`-bit words `a, b` are bitwise-complementary when their XOR is the
all-ones word. -/
def complW (W a b : Nat) : Prop := a ^^^ b = 2 ^ W - 1

theorem intRadix_simLaws (W : Nat) : SimLaws (intRadix W) (complW W) := by
  refine ⟨?_, ?_, ?_, ?_⟩
  · intro a
    show radix_similarity W a a = W
    unfold radix_similarity leadingZeros
    rw [Nat.xor_self]
    simp [bitLength_zero]
  · intro a b
    show radix_similarity W a b = radix_similarity W b a
    unfold radix_similarity
    rw [Nat.xor_comm]
  · intro a b hc
    show radix_similarity W a b = 0
    unfold radix_similarity leadingZeros
    rw [hc, bitLength_two_pow_sub_one]
    omega
  · intro a b
    exact Nat.sub_le _ _

theorem unitRadix_simLaws : SimLaws unitRadix (fun _ _ => True) := by
  refine ⟨fun _ => rfl, fun _ _ => rfl, fun _ _ _ => rfl, fun _ _ => le_refl _⟩

theorem reverseRadix_simLaws {r : RadixT K} {c : K → K → Prop}
    (h : SimLaws r c) : SimLaws (reverseRadix r) c := h

theorem wrappingRadix_simLaws {r : RadixT K} {c : K → K → Prop}
    (h : SimLaws r c) : SimLaws (wrappingRadix r) c := h

theorem floatRadix_simLaws (W : Nat) : SimLaws (floatRadix W) (complW W) :=
  intRadix_simLaws W

theorem pairRadix_simLaws {r₁ : RadixT A} {r₂ : RadixT B}
    {c₁ : A → A → Prop} {c₂ : B → B → Prop}
    (h₁ : SimLaws r₁ c₁) (h₂ : SimLaws r₂ c₂) :
    SimLaws (pairRadix r₁ r₂) (fun a b => c₁ a.1 b.1 ∧ c₂ a.2 b.2) := by
  obtain ⟨h₁self, h₁symm, h₁c, h₁le⟩ := h₁
  obtain ⟨h₂self, h₂symm, h₂c, h₂le⟩ := h₂
  refine ⟨?_, ?_, ?_, ?_⟩
  · intro a
    show (pairRadix r₁ r₂).sim a a = r₁.bits + r₂.bits
    simp only [pairRadix, h₁self, h₂self, lt_irrefl, if_false]
  · intro a b
    simp only [pairRadix, h₁symm a.1 b.1, h₂symm a.2 b.2]
  · intro a b hc
    show (pairRadix r₁ r₂).sim a b = 0
    simp only [pairRadix, h₁c a.1 b.1 hc.1, h₂c a.2 b.2 hc.2]
    split
    · rfl
    · split <;> omega
  · intro a b
    show (pairRadix r₁ r₂).sim a b ≤ r₁.bits + r₂.bits
    simp only [pairRadix]
    have hb₁ := h₁le a.1 b.1
    have hb₂ := h₂le a.2 b.2
    split
    · omega
    · split <;> omega

theorem tripleRadix_simLaws {r₁ : RadixT A} {r₂ : RadixT B} {r₃ : RadixT C}
    {c₁ : A → A → Prop} {c₂ : B → B → Prop} {c₃ : C → C → Prop}
    (h₁ : SimLaws r₁ c₁) (h₂ : SimLaws r₂ c₂) (h₃ : SimLaws r₃ c₃) :
    SimLaws (tripleRadix r₁ r₂ r₃)
      (fun a b => c₁ a.1 b.1 ∧ c₂ a.2.1 b.2.1 ∧ c₃ a.2.2 b.2.2) := by
  obtain ⟨h₁self, h₁symm, h₁c, h₁le⟩ := h₁
  obtain ⟨h₂self, h₂symm, h₂c, h₂le⟩ := h₂
  obtain ⟨h₃self, h₃symm, h₃c, h₃le⟩ := h₃
  refine ⟨?_, ?_, ?_, ?_⟩
  · intro a
    show (tripleRadix r₁ r₂ r₃).sim a a = r₁.bits + r₂.bits + r₃.bits
    simp only [tripleRadix, h₁self, h₂self, h₃self, lt_irrefl, if_false]
  · intro a b
    simp only [tripleRadix, h₁symm a.1 b.1, h₂symm a.2.1 b.2.1,
      h₃symm a.2.2 b.2.2]
  · intro a b hc
    show (tripleRadix r₁ r₂ r₃).sim a b = 0
    simp only [tripleRadix, h₁c a.1 b.1 hc.1, h₂c a.2.1 b.2.1 hc.2.1,
      h₃c a.2.2 b.2.2 hc.2.2]
    split
    · rfl
    · split
      · omega
      · split <;> omega
  · intro a b
    show (tripleRadix r₁ r₂ r₃).sim a b ≤ r₁.bits + r₂.bits + r₃.bits
    simp only [tripleRadix]
    have hb₁ := h₁le a.1 b.1
    have hb₂ := h₂le a.2.1 b.2.1
    have hb₃ := h₃le a.2.2 b.2.2
    split
    · omega
    · split
      · omega
      · split <;> omega

/-! ## Helper lemmas about `modifyIdx`, `findNonempty` and buckets -/

theorem modifyIdx_length (l : List α) (i : Nat) (f : α → α) :
    (modifyIdx l i f).length = l.length := by
  induction l generalizing i with
  | nil => rfl
  | cons a as ih =>
    match i with
    | 0 => rfl
    | i + 1 => simp [modifyIdx, ih]

theorem getD_modifyIdx_self (l : List α) (i : Nat) (f : α → α) (d : α)
    (h : i < l.length) : (modifyIdx l i f).getD i d = f (l.getD i d) := by
  induction l generalizing i with
  | nil => simp at h
  | cons a as ih =>
    match i with
    | 0 => rfl
    | i + 1 =>
      simp only [modifyIdx, List.getD_cons_succ]
      exact ih i (by simpa using h)

theorem getD_modifyIdx_ne (l : List α) (i j : Nat) (f : α → α) (d : α)
    (h : j ≠ i) : (modifyIdx l i f).getD j d = l.getD j d := by
  induction l generalizing i j with
  | nil => rfl
  | cons a as ih =>
    match i, j with
    | 0, 0 => exact absurd rfl h
    | 0, _ + 1 => rfl
    | _ + 1, 0 => rfl
    | i + 1, j + 1 =>
      simp only [modifyIdx, List.getD_cons_succ]
      exact ih i j (by omega)

theorem getD_eq_default (l : List α) (i : Nat) (d : α)
    (h : l.length ≤ i) : l.getD i d = d := by
  induction l generalizing i with
  | nil => cases i <;> rfl
  | cons a as ih =>
    match i with
    | 0 => simp at h
    | i + 1 =>
      simp only [List.getD_cons_succ]
      exact ih i (by simpa using h)

theorem getD_replicate_lt (n i : Nat) (a d : α) (h : i < n) :
    (List.replicate n a).getD i d = a := by
  induction n generalizing i with
  | zero => omega
  | succ n ih =>
    match i with
    | 0 => rfl
    | i + 1 =>
      simp only [List.replicate_succ, List.getD_cons_succ]
      exact ih i (by omega)

theorem findNonempty_none_iff (bs : List (Bucket V)) :
    findNonempty bs = none ↔ ∀ b ∈ bs, b.elems = [] := by
  induction bs with
  | nil => simp [findNonempty]
  | cons b bs ih =>
    cases hb : b.elems.isEmpty with
    | true =>
      have hb' : b.elems = [] := List.isEmpty_iff.mp hb
      simp [findNonempty, Bucket.is_empty, hb, Option.map_eq_none', ih, hb']
    | false =>
      have hb' : b.elems ≠ [] := by
        intro he; rw [he] at hb; simp at hb
      simp [findNonempty, Bucket.is_empty, hb, hb']

theorem findNonempty_some (bs : List (Bucket V)) (i : Nat)
    (h : findNonempty bs = some i) :
    i < bs.length ∧ (bs.getD i Bucket.empty).elems ≠ [] ∧
      ∀ j, j < i → (bs.getD j Bucket.empty).elems = [] := by
  induction bs generalizing i with
  | nil => simp [findNonempty] at h
  | cons b bs ih =>
    cases hb : b.elems.isEmpty with
    | false =>
      have hb' : b.elems ≠ [] := by
        intro he; rw [he] at hb; simp at hb
      simp only [findNonempty, Bucket.is_empty, hb] at h
      simp at h
      cases h
      refine ⟨by simp, by simpa using hb', by omega⟩
    | true =>
      simp only [findNonempty, Bucket.is_empty, hb] at h
      simp at h
      match i with
      | 0 =>
        exfalso
        cases hf : findNonempty bs <;> rw [hf] at h <;> simp at h
      | i + 1 =>
        have h' : findNonempty bs = some i := by
          cases hf : findNonempty bs <;> rw [hf] at h <;> simp at h
          rw [h]
        obtain ⟨h1, h2, h3⟩ := ih i h'
        refine ⟨by simpa using Nat.succ_lt_succ h1, by simpa using h2, ?_⟩
        intro j hj
        match j with
        | 0 => simpa using List.isEmpty_iff.mp hb
        | j + 1 => simpa using h3 j (by omega)

/-- Push a list of entries into a bucket, in order. -/
def Bucket.pushAll (b : Bucket V) (l : List (Nat × V)) : Bucket V :=
  l.foldl (fun b kv => b.push kv.1 kv.2) b

theorem Bucket.pushAll_elems (b : Bucket V) (l : List (Nat × V)) :
    (b.pushAll l).elems = b.elems ++ l := by
  induction l generalizing b with
  | nil => simp [pushAll]
  | cons kv l ih =>
    show ((b.push kv.1 kv.2).pushAll l).elems = b.elems ++ kv :: l
    rw [ih]
    simp [Bucket.push]

/-- The cached max of a bucket is the maximum of its entries (present in
the bucket, and an upper bound). -/
def maxOK (b : Bucket V) : Prop :=
  (b.max = none → b.elems = []) ∧
  (∀ m, b.max = some m →
    (∃ v, (m, v) ∈ b.elems) ∧ ∀ kv ∈ b.elems, kv.1 ≤ m)

theorem maxOK_empty : maxOK (Bucket.empty : Bucket V) := by
  constructor
  · intro _; rfl
  · intro m hm; simp [Bucket.empty] at hm

theorem maxOK_push {b : Bucket V} (h : maxOK b) (k : Nat) (v : V) :
    maxOK (b.push k v) := by
  obtain ⟨hn, hs⟩ := h
  constructor
  · intro hnone; simp [Bucket.push] at hnone
  · intro m' hm'
    simp only [Bucket.push] at hm'
    cases hm : b.max with
    | none =>
      rw [hm] at hm'
      simp at hm'
      subst hm'
      have hb : b.elems = [] := hn hm
      constructor
      · exact ⟨v, by simp [Bucket.push, hb]⟩
      · intro kv hkv
        simp [Bucket.push, hb] at hkv
        simp [hkv]
    | some m =>
      rw [hm] at hm'
      simp at hm'
      obtain ⟨⟨w, hw⟩, hub⟩ := hs m hm
      constructor
      · rcases Nat.le_total m k with hle | hle
        · refine ⟨v, ?_⟩
          simp [Bucket.push, ← hm', Nat.max_eq_right hle]
        · refine ⟨w, ?_⟩
          simp [Bucket.push, ← hm', Nat.max_eq_left hle, hw]
      · intro kv hkv
        simp only [Bucket.push, List.mem_append] at hkv
        rcases hkv with hkv | hkv
        · exact le_trans (hub kv hkv) (by rw [← hm']; exact Nat.le_max_left m k)
        · simp at hkv
          rw [hkv, ← hm']
          exact Nat.le_max_right m k

theorem maxOK_pushAll {b : Bucket V} (h : maxOK b) (l : List (Nat × V)) :
    maxOK (b.pushAll l) := by
  induction l generalizing b with
  | nil => exact h
  | cons kv l ih => exact ih (maxOK_push h kv.1 kv.2)

theorem maxOK_some_of_ne_nil {b : Bucket V} (h : maxOK b)
    (hne : b.elems ≠ []) : ∃ m, b.max = some m := by
  cases hm : b.max with
  | none => exact absurd (h.1 hm) hne
  | some m => exact ⟨m, rfl⟩

/-! ## Permutation toolkit for flattened bucket lists -/

theorem flatten_map_nil (is : List ι) :
    (is.map (fun _ => ([] : List α))).flatten = [] := by
  induction is with
  | nil => rfl
  | cons i is ih => simp [ih]

/-- Distributing a list into buckets by a `Nat`-valued function and
flattening back is a permutation of the original list. -/
theorem flatten_filter_perm (f : α → Nat) :
    ∀ (l : List α) (n : Nat), (∀ x ∈ l, f x < n) →
    (((List.range n).map (fun i => l.filter (fun x => f x = i))).flatten).Perm
      l := by
  intro l
  induction l with
  | nil =>
    intro n _
    simp only [List.filter_nil]
    rw [flatten_map_nil]
  | cons x l ih =>
    intro n hf
    have hx : f x ∈ List.range n := List.mem_range.mpr (hf x (by simp))
    obtain ⟨s, t, hst⟩ := List.append_of_mem hx
    have hnd : (s ++ f x :: t).Nodup := by
      rw [← hst]; exact List.nodup_range n
    have hxs : f x ∉ s := by
      rcases List.nodup_append.mp hnd with ⟨_, _, hdisj⟩
      intro hmem
      exact List.disjoint_left.mp hdisj hmem (by simp)
    have hxt : f x ∉ t := by
      rcases List.nodup_append.mp hnd with ⟨_, hnd2, _⟩
      exact (List.nodup_cons.mp hnd2).1
    have hcons : ∀ i, (x :: l).filter (fun y => f y = i) =
        if f x = i then x :: l.filter (fun y => f y = i)
        else l.filter (fun y => f y = i) := by
      intro i
      rw [List.filter_cons]
      by_cases hfx : f x = i <;> simp [hfx]
    have hmap_eq : ∀ (js : List Nat), f x ∉ js →
        js.map (fun i => (x :: l).filter (fun y => f y = i)) =
        js.map (fun i => l.filter (fun y => f y = i)) := by
      intro js hjs
      apply List.map_congr_left
      intro i hi
      rw [hcons i]
      apply if_neg
      intro he
      rw [he] at hjs
      exact hjs hi
    rw [hst, List.map_append, List.flatten_append, hmap_eq s hxs]
    simp only [List.map_cons, List.flatten_cons, hmap_eq t hxt, hcons (f x),
      if_pos rfl, List.cons_append]
    refine List.Perm.trans List.perm_middle ?_
    refine List.Perm.cons x ?_
    have hih := ih n (fun y hy => hf y (by simp [hy]))
    rw [hst, List.map_append, List.flatten_append] at hih
    simp only [List.map_cons, List.flatten_cons, List.append_assoc] at hih ⊢
    exact hih

theorem flatten_map_append_perm (is : List ι) (A B : ι → List α) :
    ((is.map (fun j => A j ++ B j)).flatten).Perm
      ((is.map A).flatten ++ (is.map B).flatten) := by
  induction is with
  | nil => rfl
  | cons j is ih =>
    simp only [List.map_cons, List.flatten_cons, List.append_assoc]
    refine List.Perm.append_left (A j) ?_
    refine List.Perm.trans (List.Perm.append_left (B j) ih) ?_
    exact List.perm_append_comm_assoc _ _ _

/-- Emptying the component at one index of an indexed family of lists
removes exactly that component from the flattening. -/
theorem flatten_map_eq_update (n i : Nat) (hi : i < n) (C : Nat → List α) :
    (((List.range n).map C).flatten).Perm
      ((((List.range n).map (fun j => if j = i then [] else C j)).flatten)
        ++ C i) := by
  have hmem : i ∈ List.range n := List.mem_range.mpr hi
  obtain ⟨s, t, hst⟩ := List.append_of_mem hmem
  have hnd : (s ++ i :: t).Nodup := by
    rw [← hst]; exact List.nodup_range n
  have his : i ∉ s := by
    rcases List.nodup_append.mp hnd with ⟨_, _, hdisj⟩
    intro hmem'
    exact List.disjoint_left.mp hdisj hmem' (by simp)
  have hit : i ∉ t := by
    rcases List.nodup_append.mp hnd with ⟨_, hnd2, _⟩
    exact (List.nodup_cons.mp hnd2).1
  have hmap_eq : ∀ (js : List Nat), i ∉ js →
      js.map (fun j => if j = i then [] else C j) = js.map C := by
    intro js hjs
    apply List.map_congr_left
    intro j hj
    apply if_neg
    intro he
    rw [he] at hj
    exact hjs hj
  rw [hst, List.map_append, List.map_append, List.flatten_append,
    List.flatten_append, hmap_eq s his]
  simp only [List.map_cons, List.flatten_cons, if_pos rfl, List.nil_append,
    hmap_eq t hit, List.append_assoc]
  refine List.Perm.append_left ((s.map C).flatten) ?_
  exact List.perm_append_comm

/-- Identify the bucket list of a heap with an explicit indexed family. -/
theorem buckets_map_elems (h' : HeapMap V) (n : Nat)
    (g : Nat → List (Nat × V)) (hlen : h'.buckets.length = n)
    (hpt : ∀ j, j < n → (bucketAt h' j).elems = g j) :
    h'.buckets.map Bucket.elems = (List.range n).map g := by
  apply List.ext_getElem
  · simp [hlen]
  · intro j h₁ h₂
    rw [List.getElem_map, List.getElem_map, List.getElem_range]
    have hj : j < n := by simpa [hlen] using h₁
    have := hpt j hj
    rw [← this]
    unfold bucketAt
    rw [List.getD_eq_getElem _ _ (by simpa [hlen] using hj)]

theorem flatten_elems_nil (bs : List (Bucket V))
    (h : ∀ b ∈ bs, b.elems = []) : (bs.map Bucket.elems).flatten = [] := by
  rw [List.flatten_eq_nil_iff]
  intro l hl
  rcases List.mem_map.mp hl with ⟨b, hb, rfl⟩
  exact h b hb

/-! ## The well-formedness invariant -/

/-- The full internal invariant of a reachable heap: the bucket count, the
length counter, correctness of the cached maxima, key bounds, and the
bucket-placement facts (spec I1-I4). -/
structure WF (W : Nat) (h : HeapMap V) : Prop where
  nbuckets : h.buckets.length = W + 1
  len_eq : h.len = entryCount h
  init_max : maxOK h.initial
  init_keys : ∀ kv ∈ h.initial.elems, kv.1 < 2 ^ W
  top_cases :
    (h.top = none ∧ ∀ b ∈ h.buckets, b = Bucket.empty) ∨
    (∃ t, h.top = some t ∧ t < 2 ^ W ∧ h.initial = Bucket.empty ∧
      (∀ i, 1 ≤ i → maxOK (bucketAt h i)) ∧
      (∀ i, ∀ kv ∈ (bucketAt h i).elems,
        kv.1 < 2 ^ W ∧ kv.1 ≤ t ∧ radix_distance W kv.1 t = i))

theorem bucketAt_empty_of_forall (h : HeapMap V)
    (hall : ∀ b ∈ h.buckets, b = Bucket.empty) (j : Nat) :
    bucketAt h j = Bucket.empty := by
  unfold bucketAt
  by_cases hj : j < h.buckets.length
  · rw [List.getD_eq_getElem _ _ hj]
    exact hall _ (List.getElem_mem hj)
  · exact getD_eq_default _ _ _ (by omega)

theorem WF_new (V : Type u) (W : Nat) : WF W (new V W) := by
  have hf : (((new V W).buckets).map Bucket.elems).flatten = [] := by
    apply flatten_elems_nil
    intro b hb
    rcases List.eq_of_mem_replicate (show b ∈ List.replicate (W + 1)
      (Bucket.empty : Bucket V) from hb) with rfl
    rfl
  refine ⟨by simp [new], ?_, maxOK_empty, ?_, ?_⟩
  · show (0 : Nat) = entryCount (new V W)
    unfold entryCount allPairs
    rw [hf]
    rfl
  · intro kv hkv
    simp [new, Bucket.empty] at hkv
  · left
    refine ⟨rfl, ?_⟩
    intro b hb
    exact List.eq_of_mem_replicate hb

theorem bucketAt_new_at (V : Type u) (W t i : Nat) :
    bucketAt (new_at V W t) i = Bucket.empty := by
  unfold bucketAt new_at
  by_cases hi : i < W + 1
  · rw [List.getD_eq_getElem _ _ (by simpa using hi)]
    simp
  · exact getD_eq_default _ _ _ (by simpa using hi)

theorem WF_new_at (V : Type u) (W t : Nat) (ht : t < 2 ^ W) :
    WF W (new_at V W t) := by
  have hf : (((new_at V W t).buckets).map Bucket.elems).flatten = [] := by
    apply flatten_elems_nil
    intro b hb
    rcases List.eq_of_mem_replicate (show b ∈ List.replicate (W + 1)
      (Bucket.empty : Bucket V) from hb) with rfl
    rfl
  refine ⟨by simp [new_at], ?_, maxOK_empty, ?_, ?_⟩
  · show (0 : Nat) = entryCount (new_at V W t)
    unfold entryCount allPairs
    rw [hf]
    rfl
  · intro kv hkv
    simp [new_at, Bucket.empty] at hkv
  · right
    refine ⟨t, rfl, ht, rfl, ?_, ?_⟩
    · intro i _
      rw [bucketAt_new_at]; exact maxOK_empty
    · intro i kv hkv
      rw [bucketAt_new_at] at hkv
      simp [Bucket.empty] at hkv

/-! ## Field-level behaviour of `push_nocheck` and `repush_entries` -/

theorem push_nocheck_top (W : Nat) (h : HeapMap V) (k : Nat) (v : V) (t : Nat) :
    (push_nocheck W h k v t).top = h.top := rfl

theorem push_nocheck_len (W : Nat) (h : HeapMap V) (k : Nat) (v : V) (t : Nat) :
    (push_nocheck W h k v t).len = h.len := rfl

theorem push_nocheck_initial (W : Nat) (h : HeapMap V) (k : Nat) (v : V)
    (t : Nat) : (push_nocheck W h k v t).initial = h.initial := rfl

theorem push_nocheck_nbuckets (W : Nat) (h : HeapMap V) (k : Nat) (v : V)
    (t : Nat) : (push_nocheck W h k v t).buckets.length = h.buckets.length :=
  modifyIdx_length _ _ _

theorem bucketAt_push_nocheck (W : Nat) (h : HeapMap V) (k : Nat) (v : V)
    (t : Nat) (hd : radix_distance W k t < h.buckets.length) (j : Nat) :
    bucketAt (push_nocheck W h k v t) j =
      if j = radix_distance W k t then (bucketAt h j).push k v
      else bucketAt h j := by
  unfold push_nocheck bucketAt
  by_cases hj : j = radix_distance W k t
  · subst hj
    rw [if_pos rfl, getD_modifyIdx_self _ _ _ _ hd]
  · rw [if_neg hj, getD_modifyIdx_ne _ _ _ _ _ hj]

theorem repush_entries_cons (W : Nat) (h : HeapMap V) (M : Nat)
    (kv : Nat × V) (l : List (Nat × V)) :
    repush_entries W h M (kv :: l) =
      repush_entries W (push_nocheck W h kv.1 kv.2 M) M l := rfl

theorem repush_entries_fields (W : Nat) (l : List (Nat × V)) :
    ∀ (h : HeapMap V) (M : Nat),
    (repush_entries W h M l).top = h.top ∧
    (repush_entries W h M l).len = h.len ∧
    (repush_entries W h M l).initial = h.initial ∧
    (repush_entries W h M l).buckets.length = h.buckets.length := by
  induction l with
  | nil => exact fun h M => ⟨rfl, rfl, rfl, rfl⟩
  | cons kv l ih =>
    intro h M
    rw [repush_entries_cons]
    obtain ⟨h1, h2, h3, h4⟩ := ih (push_nocheck W h kv.1 kv.2 M) M
    exact ⟨h1, h2, h3, by rw [h4, push_nocheck_nbuckets]⟩

theorem repush_entries_bucketAt (W : Nat) (l : List (Nat × V)) :
    ∀ (h : HeapMap V) (M : Nat), h.buckets.length = W + 1 → ∀ j,
    bucketAt (repush_entries W h M l) j =
      (bucketAt h j).pushAll
        (l.filter (fun kv => radix_distance W kv.1 M = j)) := by
  induction l with
  | nil => exact fun h M _ j => rfl
  | cons kv l ih =>
    intro h M hlen j
    have hd : radix_distance W kv.1 M < h.buckets.length := by
      rw [hlen]; exact Nat.lt_succ_of_le (radix_distance_le W kv.1 M)
    rw [repush_entries_cons,
      ih (push_nocheck W h kv.1 kv.2 M) M
        (by rw [push_nocheck_nbuckets]; exact hlen) j,
      bucketAt_push_nocheck W h kv.1 kv.2 M hd j, List.filter_cons]
    simp only [decide_eq_true_eq]
    by_cases hj : radix_distance W kv.1 M = j
    · rw [if_pos hj, if_pos hj.symm]
      rfl
    · rw [if_neg hj, if_neg (fun he => hj he.symm)]

/-! ## The four cases of `constrain` -/

theorem constrain_top_none_empty (W : Nat) (h : HeapMap V)
    (htop : h.top = none) (hinit : h.initial.elems = []) :
    constrain W h = h := by
  unfold constrain
  rw [htop]
  simp [Bucket.is_empty, hinit]

theorem constrain_find_none (W : Nat) (h : HeapMap V) (t : Nat)
    (htop : h.top = some t) (hfind : findNonempty h.buckets = none) :
    constrain W h = h := by
  unfold constrain
  rw [htop, hfind]

theorem constrain_find_zero (W : Nat) (h : HeapMap V) (t : Nat)
    (htop : h.top = some t) (hfind : findNonempty h.buckets = some 0) :
    constrain W h = h := by
  unfold constrain
  rw [htop, hfind]
  simp

/-- The `top = None` repush case of `constrain`: the cached max of
`initial` becomes the top, and `initial`'s entries are redistributed to the
buckets at their distance from the new top. -/
theorem constrain_initial_spec (W : Nat) (h : HeapMap V) (hwf : WF W h)
    (htop : h.top = none) (hne : h.initial.elems ≠ []) :
    ∃ M, h.initial.max = some M ∧ (∃ v, (M, v) ∈ h.initial.elems) ∧
      (∀ kv ∈ h.initial.elems, kv.1 ≤ M) ∧ M < 2 ^ W ∧
      (constrain W h).top = some M ∧
      (constrain W h).len = h.len ∧
      (constrain W h).initial = Bucket.empty ∧
      (constrain W h).buckets.length = W + 1 ∧
      (∀ j, bucketAt (constrain W h) j =
        Bucket.pushAll Bucket.empty
          (h.initial.elems.filter (fun kv => radix_distance W kv.1 M = j))) := by
  obtain ⟨M, hM⟩ := maxOK_some_of_ne_nil hwf.init_max hne
  obtain ⟨⟨v, hv⟩, hub⟩ := hwf.init_max.2 M hM
  have hMW : M < 2 ^ W := hwf.init_keys (M, v) hv
  have hcon : constrain W h = repush_initial W h := by
    unfold constrain
    rw [htop]
    simp [Bucket.is_empty, hne]
  have hrep : repush_initial W h =
      repush_entries W { h with initial := Bucket.empty, top := some M } M
        h.initial.elems := by
    unfold repush_initial
    rw [hM]
  have hall : ∀ b ∈ h.buckets, b = Bucket.empty := by
    rcases hwf.top_cases with ⟨_, hb⟩ | ⟨t, ht, _⟩
    · exact hb
    · rw [htop] at ht; exact Option.noConfusion ht
  set h'' : HeapMap V := { h with initial := Bucket.empty, top := some M }
    with hh''
  have hlen'' : h''.buckets.length = W + 1 := hwf.nbuckets
  obtain ⟨hf1, hf2, hf3, hf4⟩ := repush_entries_fields W h.initial.elems h'' M
  refine ⟨M, hM, ⟨v, hv⟩, hub, hMW, ?_, ?_, ?_, ?_, ?_⟩
  · rw [hcon, hrep, hf1]
  · rw [hcon, hrep, hf2]
  · rw [hcon, hrep, hf3]
  · rw [hcon, hrep, hf4, hlen'']
  · intro j
    rw [hcon, hrep, repush_entries_bucketAt W h.initial.elems h'' M hlen'' j]
    have hbe : bucketAt h'' j = Bucket.empty :=
      bucketAt_empty_of_forall h'' (by exact hall) j
    rw [hbe]

/-- The `top = Some` repush case of `constrain`, with the first nonempty
bucket at index `i ≠ 0`: that bucket's cached max becomes the new top, the
bucket is emptied, and its entries are redistributed at their distance from
the new top. -/
theorem constrain_bucket_spec (W : Nat) (h : HeapMap V) (t i : Nat)
    (hwf : WF W h) (htop : h.top = some t)
    (hfind : findNonempty h.buckets = some i) (hi : i ≠ 0) :
    ∃ M, (bucketAt h i).max = some M ∧
      (∃ v, (M, v) ∈ (bucketAt h i).elems) ∧
      (∀ kv ∈ (bucketAt h i).elems, kv.1 ≤ M) ∧
      M ≤ t ∧ M < 2 ^ W ∧ radix_distance W M t = i ∧
      (constrain W h).top = some M ∧
      (constrain W h).len = h.len ∧
      (constrain W h).initial = h.initial ∧
      (constrain W h).buckets.length = W + 1 ∧
      (∀ j, bucketAt (constrain W h) j =
        Bucket.pushAll (if j = i then Bucket.empty else bucketAt h j)
          ((bucketAt h i).elems.filter
            (fun kv => radix_distance W kv.1 M = j))) := by
  obtain ⟨hilen, hine, hjlt⟩ := findNonempty_some h.buckets i hfind
  rcases hwf.top_cases with ⟨hn, _⟩ | ⟨t', ht', htW, hinit, hmax, hentries⟩
  · rw [htop] at hn; exact Option.noConfusion hn
  have htt' : t' = t := by
    rw [htop] at ht'; exact (Option.some.injEq _ _).mp ht'.symm
  subst htt'
  obtain ⟨M, hM⟩ := maxOK_some_of_ne_nil (hmax i (by omega)) hine
  obtain ⟨⟨v, hv⟩, hub⟩ := (hmax i (by omega)).2 M hM
  obtain ⟨hMW, hMt, hMd⟩ := hentries i (M, v) hv
  have hcon : constrain W h = repush_bucket_at W h i := by
    unfold constrain
    rw [htop, hfind]
    simp [hi]
  have hrep : repush_bucket_at W h i =
      repush_entries W { h with
        buckets := modifyIdx h.buckets i (fun _ => Bucket.empty),
        top := some M } M (bucketAt h i).elems := by
    unfold repush_bucket_at
    rw [hM]
  set h'' : HeapMap V := { h with
    buckets := modifyIdx h.buckets i (fun _ => Bucket.empty),
    top := some M } with hh''
  have hlen'' : h''.buckets.length = W + 1 := by
    show (modifyIdx h.buckets i (fun _ => Bucket.empty)).length = W + 1
    rw [modifyIdx_length]; exact hwf.nbuckets
  obtain ⟨hf1, hf2, hf3, hf4⟩ :=
    repush_entries_fields W (bucketAt h i).elems h'' M
  refine ⟨M, hM, ⟨v, hv⟩, hub, hMt, hMW, hMd, ?_, ?_, ?_, ?_, ?_⟩
  · rw [hcon, hrep, hf1]
  · rw [hcon, hrep, hf2]
  · rw [hcon, hrep, hf3]
  · rw [hcon, hrep, hf4, hlen'']
  · intro j
    rw [hcon, hrep, repush_entries_bucketAt W (bucketAt h i).elems h'' M
      hlen'' j]
    have hbe : bucketAt h'' j =
        if j = i then Bucket.empty else bucketAt h j := by
      show (modifyIdx h.buckets i (fun _ => Bucket.empty)).getD j
        Bucket.empty = _
      by_cases hj : j = i
      · subst hj
        rw [if_pos rfl, getD_modifyIdx_self _ _ _ _ hilen]
      · rw [if_neg hj, getD_modifyIdx_ne _ _ _ _ _ hj]
        rfl
    rw [hbe]

/-! ## Consequences of `constrain`: invariant preservation, permutation of
contents, and a populated bucket 0 -/

theorem findNonempty_zero_of_ne (bs : List (Bucket V))
    (h : (bs.getD 0 Bucket.empty).elems ≠ []) : findNonempty bs = some 0 := by
  cases bs with
  | nil => simp [Bucket.empty] at h
  | cons b bs =>
    have hb : ¬ b.elems.isEmpty := by
      intro he
      exact h (by simpa [List.getD_cons_zero] using List.isEmpty_iff.mp he)
    unfold findNonempty
    simp [Bucket.is_empty, hb]

theorem entryCount_ne_zero_of_mem {h : HeapMap V} {kv : Nat × V}
    (hkv : kv ∈ allPairs h) : entryCount h ≠ 0 := by
  unfold entryCount
  intro hc
  rw [List.length_eq_zero] at hc
  rw [hc] at hkv
  exact List.not_mem_nil kv hkv

theorem mem_allPairs_of_bucket {h : HeapMap V} {j : Nat} {kv : Nat × V}
    (hj : j < h.buckets.length) (hkv : kv ∈ (bucketAt h j).elems) :
    kv ∈ allPairs h := by
  unfold allPairs
  refine List.mem_append.mpr (Or.inr ?_)
  rw [List.mem_flatten]
  refine ⟨(bucketAt h j).elems, ?_, hkv⟩
  unfold bucketAt
  rw [List.getD_eq_getElem _ _ hj]
  exact List.mem_map_of_mem _ (List.getElem_mem hj)

theorem allPairs_top_none {W : Nat} {h : HeapMap V} (hwf : WF W h)
    (htop : h.top = none) : allPairs h = h.initial.elems := by
  have hall : ∀ b ∈ h.buckets, b = Bucket.empty := by
    rcases hwf.top_cases with ⟨_, hb⟩ | ⟨t, ht, _⟩
    · exact hb
    · rw [htop] at ht; exact Option.noConfusion ht
  unfold allPairs
  rw [flatten_elems_nil _ (fun b hb => by rw [hall b hb]; rfl),
    List.append_nil]

/-- Bundled consequences of the `top = None` repush case. -/
theorem constrain_props_initial (W : Nat) (h : HeapMap V) (hwf : WF W h)
    (htop : h.top = none) (hne : h.initial.elems ≠ []) :
    WF W (constrain W h) ∧
    (allPairs (constrain W h)).Perm (allPairs h) ∧
    (bucketAt (constrain W h) 0).elems ≠ [] ∧
    (∃ M, (constrain W h).top = some M) := by
  obtain ⟨M, hM, ⟨v, hv⟩, hub, hMW, hc_top, hc_len, hc_init, hc_nb, hc_bk⟩ :=
    constrain_initial_spec W h hwf htop hne
  have helems : ∀ j, (bucketAt (constrain W h) j).elems =
      h.initial.elems.filter (fun kv => radix_distance W kv.1 M = j) := by
    intro j
    rw [hc_bk j, Bucket.pushAll_elems]
    simp [Bucket.empty]
  have hmapel : (constrain W h).buckets.map Bucket.elems =
      (List.range (W + 1)).map
        (fun j => h.initial.elems.filter
          (fun kv => radix_distance W kv.1 M = j)) :=
    buckets_map_elems _ _ _ hc_nb (fun j _ => helems j)
  have hperm' : (((constrain W h).buckets.map Bucket.elems).flatten).Perm
      h.initial.elems := by
    rw [hmapel]
    exact flatten_filter_perm (fun kv => radix_distance W kv.1 M)
      h.initial.elems (W + 1)
      (fun kv _ => Nat.lt_succ_of_le (radix_distance_le W kv.1 M))
  have hap : allPairs h = h.initial.elems := allPairs_top_none hwf htop
  have hapc : allPairs (constrain W h) =
      ((constrain W h).buckets.map Bucket.elems).flatten := by
    unfold allPairs
    rw [hc_init]
    rfl
  have hperm : (allPairs (constrain W h)).Perm (allPairs h) := by
    rw [hapc, hap]; exact hperm'
  refine ⟨?_, hperm, ?_, ⟨M, hc_top⟩⟩
  · refine ⟨hc_nb, ?_, ?_, ?_, ?_⟩
    · rw [hc_len, hwf.len_eq]
      unfold entryCount
      exact (hperm.length_eq).symm
    · rw [hc_init]; exact maxOK_empty
    · rw [hc_init]; intro kv hkv; simp [Bucket.empty] at hkv
    · right
      refine ⟨M, hc_top, hMW, hc_init, ?_, ?_⟩
      · intro i _
        rw [hc_bk i]
        exact maxOK_pushAll maxOK_empty _
      · intro i kv hkv
        rw [helems i] at hkv
        obtain ⟨hmem, hd⟩ := List.mem_filter.mp hkv
        exact ⟨hwf.init_keys kv hmem, hub kv hmem, by simpa using hd⟩
  · rw [helems 0]
    refine List.ne_nil_of_mem (a := (M, v)) ?_
    refine List.mem_filter.mpr ⟨hv, ?_⟩
    simp [radix_distance_self]

/-- Bundled consequences of the `top = Some` repush case. -/
theorem constrain_props_bucket (W : Nat) (h : HeapMap V) (t i : Nat)
    (hwf : WF W h) (htop : h.top = some t)
    (hfind : findNonempty h.buckets = some i) (hi : i ≠ 0) :
    WF W (constrain W h) ∧
    (allPairs (constrain W h)).Perm (allPairs h) ∧
    (bucketAt (constrain W h) 0).elems ≠ [] ∧
    (∃ M, (constrain W h).top = some M ∧ M ≤ t) := by
  obtain ⟨M, hM, ⟨v, hv⟩, hub, hMt, hMW, hMd, hc_top, hc_len, hc_init,
    hc_nb, hc_bk⟩ := constrain_bucket_spec W h t i hwf htop hfind hi
  obtain ⟨hilen, hine, hjlt⟩ := findNonempty_some h.buckets i hfind
  rcases hwf.top_cases with ⟨hn, _⟩ | ⟨t', ht', htW, hinit, hmax, hentries⟩
  · rw [htop] at hn; exact Option.noConfusion hn
  have htt' : t' = t := by
    rw [htop] at ht'; exact (Option.some.injEq _ _).mp ht'.symm
  subst htt'
  have hiW : i < W + 1 := by rw [← hwf.nbuckets]; exact hilen
  have helems : ∀ j, (bucketAt (constrain W h) j).elems =
      (if j = i then [] else (bucketAt h j).elems) ++
        ((bucketAt h i).elems.filter
          (fun kv => radix_distance W kv.1 M = j)) := by
    intro j
    rw [hc_bk j, Bucket.pushAll_elems, apply_ite Bucket.elems]
    rfl
  have hmapel : (constrain W h).buckets.map Bucket.elems =
      (List.range (W + 1)).map
        (fun j => (if j = i then [] else (bucketAt h j).elems) ++
          ((bucketAt h i).elems.filter
            (fun kv => radix_distance W kv.1 M = j))) :=
    buckets_map_elems _ _ _ hc_nb (fun j _ => helems j)
  have hmapold : h.buckets.map Bucket.elems =
      (List.range (W + 1)).map (fun j => (bucketAt h j).elems) :=
    buckets_map_elems _ _ _ hwf.nbuckets (fun j _ => rfl)
  have hfnew : (((constrain W h).buckets.map Bucket.elems).flatten).Perm
      ((((List.range (W + 1)).map
        (fun j => if j = i then [] else (bucketAt h j).elems)).flatten)
        ++ (bucketAt h i).elems) := by
    rw [hmapel]
    refine List.Perm.trans (flatten_map_append_perm _ _ _) ?_
    refine List.Perm.append_left _ ?_
    exact flatten_filter_perm (fun kv => radix_distance W kv.1 M)
      (bucketAt h i).elems (W + 1)
      (fun kv _ => Nat.lt_succ_of_le (radix_distance_le W kv.1 M))
  have hfold : ((h.buckets.map Bucket.elems).flatten).Perm
      ((((List.range (W + 1)).map
        (fun j => if j = i then [] else (bucketAt h j).elems)).flatten)
        ++ (bucketAt h i).elems) := by
    rw [hmapold]
    exact flatten_map_eq_update (W + 1) i hiW _
  have hperm : (allPairs (constrain W h)).Perm (allPairs h) := by
    unfold allPairs
    rw [hc_init]
    exact List.Perm.append_left _ (hfnew.trans hfold.symm)
  refine ⟨?_, hperm, ?_, ⟨M, hc_top, hMt⟩⟩
  · refine ⟨hc_nb, ?_, ?_, ?_, ?_⟩
    · rw [hc_len, hwf.len_eq]
      unfold entryCount
      exact (hperm.length_eq).symm
    · rw [hc_init]; exact hwf.init_max
    · rw [hc_init]; exact hwf.init_keys
    · right
      refine ⟨M, hc_top, hMW, by rw [hc_init]; exact hinit, ?_, ?_⟩
      · intro j hj
        rw [hc_bk j]
        refine maxOK_pushAll ?_ _
        by_cases hji : j = i
        · rw [if_pos hji]; exact maxOK_empty
        · rw [if_neg hji]; exact hmax j hj
      · intro j kv hkv
        rw [helems j] at hkv
        rcases List.mem_append.mp hkv with hold | hfil
        · by_cases hji : j = i
          · rw [if_pos hji] at hold
            exact absurd hold (List.not_mem_nil kv)
          · rw [if_neg hji] at hold
            obtain ⟨hkW, hkt, hkd⟩ := hentries j kv hold
            have hij : i < j := by
              rcases Nat.lt_or_ge j i with hji' | hji'
              · exfalso
                have hemp : (bucketAt h j).elems = [] := hjlt j hji'
                exact List.ne_nil_of_mem hold hemp
              · rcases Nat.eq_or_lt_of_le hji' with hji'' | hji''
                · exact absurd hji''.symm hji
                · exact hji''
            have hklt : kv.1 < M :=
              key_lt_of_dist_lt hMW hkW htW hMt hkt (by omega)
            exact ⟨hkW, by omega,
              dist_stable_of_dist_lt hkW hMW htW hkd hMd hij⟩
        · obtain ⟨hmem, hd⟩ := List.mem_filter.mp hfil
          obtain ⟨hkW, _, _⟩ := hentries i kv hmem
          exact ⟨hkW, hub kv hmem, by simpa using hd⟩
  · rw [helems 0]
    refine List.ne_nil_of_mem
      (a := (M, v)) (List.mem_append.mpr (Or.inr ?_))
    refine List.mem_filter.mpr ⟨hv, ?_⟩
    simp [radix_distance_self]

/-- Summary of `constrain` on a well-formed heap: the invariant is
preserved, the stored entries are permuted, bucket 0 ends up nonempty
unless the heap is empty (in which case nothing changes), and an existing
top can only decrease. -/
theorem constrain_props (W : Nat) (h : HeapMap V) (hwf : WF W h) :
    WF W (constrain W h) ∧
    (allPairs (constrain W h)).Perm (allPairs h) ∧
    (entryCount h ≠ 0 → (bucketAt (constrain W h) 0).elems ≠ []) ∧
    (entryCount h = 0 → constrain W h = h) ∧
    (∀ t, h.top = some t → ∃ t', (constrain W h).top = some t' ∧ t' ≤ t) := by
  rcases htop : h.top with _ | t
  · by_cases hne : h.initial.elems = []
    · have hcc := constrain_top_none_empty W h htop hne
      have hap : allPairs h = h.initial.elems := allPairs_top_none hwf htop
      refine ⟨by rw [hcc]; exact hwf, by rw [hcc], ?_, fun _ => hcc, ?_⟩
      · intro hc
        exfalso
        apply hc
        unfold entryCount
        rw [hap, hne]
        rfl
      · intro t ht
        exact Option.noConfusion ht
    · obtain ⟨hwf', hperm, hb0, _⟩ :=
        constrain_props_initial W h hwf htop hne
      refine ⟨hwf', hperm, fun _ => hb0, ?_, ?_⟩
      · intro hc
        exfalso
        have hap : allPairs h = h.initial.elems := allPairs_top_none hwf htop
        unfold entryCount at hc
        rw [hap, List.length_eq_zero] at hc
        exact hne hc
      · intro t ht
        exact Option.noConfusion ht
  · rcases hfind : findNonempty h.buckets with _ | i
    · have hcc := constrain_find_none W h t htop hfind
      have hall : ∀ b ∈ h.buckets, b.elems = [] :=
        (findNonempty_none_iff h.buckets).mp hfind
      rcases hwf.top_cases with ⟨hn, _⟩ | ⟨t', ht', _, hinit, _, _⟩
      · rw [htop] at hn; exact Option.noConfusion hn
      have hcount : entryCount h = 0 := by
        unfold entryCount allPairs
        rw [hinit, flatten_elems_nil _ hall]
        rfl
      refine ⟨by rw [hcc]; exact hwf, by rw [hcc], ?_, fun _ => hcc, ?_⟩
      · intro hc; exact absurd hcount hc
      · intro t0 ht0
        exact ⟨t0, by rw [hcc, htop]; exact ht0, le_refl t0⟩
    · by_cases hi : i = 0
      · subst hi
        have hcc := constrain_find_zero W h t htop hfind
        obtain ⟨hilen, hine, _⟩ := findNonempty_some h.buckets 0 hfind
        refine ⟨by rw [hcc]; exact hwf, by rw [hcc], ?_, fun _ => hcc, ?_⟩
        · intro _
          rw [hcc]
          exact hine
        · intro t0 ht0
          exact ⟨t0, by rw [hcc, htop]; exact ht0, le_refl t0⟩
      · obtain ⟨hwf', hperm, hb0, M, hMtop, hMle⟩ :=
          constrain_props_bucket W h t i hwf htop hfind hi
        obtain ⟨hilen, hine, _⟩ := findNonempty_some h.buckets i hfind
        refine ⟨hwf', hperm, fun _ => hb0, ?_, ?_⟩
        · intro hc
          exfalso
          obtain ⟨kv, hkv⟩ := List.exists_mem_of_ne_nil _ hine
          exact entryCount_ne_zero_of_mem
            (mem_allPairs_of_bucket hilen hkv) hc
        · intro t0 ht0
          have ht0t : t = t0 := (Option.some.injEq t t0).mp ht0
          subst ht0t
          exact ⟨M, hMtop, hMle⟩

/-- After one `constrain`, a second `constrain` changes nothing. -/
theorem constrain_idem (W : Nat) (h : HeapMap V) (hwf : WF W h) :
    constrain W (constrain W h) = constrain W h := by
  by_cases hc : entryCount h = 0
  · have hcc := (constrain_props W h hwf).2.2.2.1 hc
    rw [hcc]
    exact hcc
  · obtain ⟨hwf', _, hb0, _, _⟩ := constrain_props W h hwf
    have hb0' := hb0 hc
    have hfind : findNonempty (constrain W h).buckets = some 0 :=
      findNonempty_zero_of_ne _ hb0'
    have htop' : ∃ t', (constrain W h).top = some t' := by
      rcases hwf'.top_cases with ⟨hn, hall⟩ | ⟨t', ht', _⟩
      · exfalso
        apply hb0'
        have hbe := bucketAt_empty_of_forall (constrain W h) hall 0
        rw [hbe]
        rfl
      · exact ⟨t', ht'⟩
    obtain ⟨t', ht'⟩ := htop'
    exact constrain_find_zero W (constrain W h) t' ht' hfind

/-! ## Behaviour of `pop` -/

theorem keys_le_top {W : Nat} {h : HeapMap V} (hwf : WF W h) {t : Nat}
    (ht : h.top = some t) : ∀ kv ∈ allPairs h, kv.1 ≤ t := by
  rcases hwf.top_cases with ⟨hn, _⟩ | ⟨t', ht', _, hinit, _, hentries⟩
  · rw [ht] at hn; exact Option.noConfusion hn
  have htt' : t' = t := by
    rw [ht] at ht'; exact (Option.some.injEq _ _).mp ht'.symm
  subst htt'
  intro kv hkv
  unfold allPairs at hkv
  rcases List.mem_append.mp hkv with hkv | hkv
  · rw [hinit] at hkv
    simp [Bucket.empty] at hkv
  · rw [List.mem_flatten] at hkv
    obtain ⟨le, hle, hkv⟩ := hkv
    rcases List.mem_map.mp hle with ⟨b, hb, rfl⟩
    obtain ⟨j, hj, hbj⟩ := List.mem_iff_getElem.mp hb
    have hbj' : bucketAt h j = b := by
      unfold bucketAt
      rw [List.getD_eq_getElem _ _ hj, hbj]
    exact (hentries j kv (by rw [hbj']; exact hkv)).2.1

theorem elems_nil_of_count_zero {W : Nat} {h : HeapMap V} (_hwf : WF W h)
    (hc : entryCount h = 0) :
    h.initial.elems = [] ∧ ∀ j, (bucketAt h j).elems = [] := by
  have hap : allPairs h = [] := List.length_eq_zero.mp hc
  unfold allPairs at hap
  obtain ⟨hinit, hflat⟩ := List.append_eq_nil.mp hap
  refine ⟨hinit, ?_⟩
  intro j
  by_cases hj : j < h.buckets.length
  · have hmem : (bucketAt h j).elems ∈ h.buckets.map Bucket.elems := by
      unfold bucketAt
      rw [List.getD_eq_getElem _ _ hj]
      exact List.mem_map_of_mem _ (List.getElem_mem hj)
    exact (List.flatten_eq_nil_iff.mp hflat) _ hmem
  · unfold bucketAt
    rw [getD_eq_default _ _ _ (by omega)]
    rfl

theorem pop_of_count_zero (W : Nat) (h : HeapMap V) (hwf : WF W h)
    (hc : entryCount h = 0) : pop W h = (none, h) := by
  have hcc := (constrain_props W h hwf).2.2.2.1 hc
  have hb0 : (bucketAt h 0).elems = [] := (elems_nil_of_count_zero hwf hc).2 0
  unfold pop
  rw [hcc]
  unfold Bucket.pop
  rw [hb0]
  rfl

/-- `pop` on a nonempty well-formed heap: the invariant is preserved, the
returned key is the maximum stored key and becomes the new top, and exactly
that entry is removed. -/
theorem pop_spec (W : Nat) (h : HeapMap V) (hwf : WF W h)
    (hc : entryCount h ≠ 0) :
    ∃ e : Nat × V, (pop W h).1 = some e ∧
      WF W (pop W h).2 ∧
      (pop W h).2.top = some e.1 ∧
      (allPairs h).Perm (e :: allPairs (pop W h).2) ∧
      (∀ kv ∈ allPairs h, kv.1 ≤ e.1) ∧
      entryCount (pop W h).2 = entryCount h - 1 ∧
      (pop W h).2.len = h.len - 1 := by
  obtain ⟨hwf', hperm, hb0f, _, _⟩ := constrain_props W h hwf
  have hb0 := hb0f hc
  rcases hwf'.top_cases with ⟨hn, hall⟩ | ⟨t', ht', htW, hinit, hmax, hentries⟩
  · exfalso
    apply hb0
    have hbe := bucketAt_empty_of_forall (constrain W h) hall 0
    rw [hbe]
    rfl
  cases hget : (bucketAt (constrain W h) 0).elems.getLast? with
  | none => exact absurd (List.getLast?_eq_none_iff.mp hget) hb0
  | some e =>
  obtain ⟨ys, hys⟩ := List.getLast?_eq_some_iff.mp hget
  have hemem : e ∈ (bucketAt (constrain W h) 0).elems := by
    rw [hys]; simp
  obtain ⟨heW, het, hed⟩ := hentries 0 e hemem
  have hkey : e.1 = t' := (radix_distance_eq_zero_iff heW htW).mp hed
  have hpop : pop W h = (some e,
      { constrain W h with
        buckets := modifyIdx (constrain W h).buckets 0
          (fun _ => { bucketAt (constrain W h) 0 with
            elems := (bucketAt (constrain W h) 0).elems.dropLast }),
        len := (constrain W h).len - 1 }) := by
    unfold pop Bucket.pop
    rw [hget]
  set h' : HeapMap V := { constrain W h with
      buckets := modifyIdx (constrain W h).buckets 0
        (fun _ => { bucketAt (constrain W h) 0 with
          elems := (bucketAt (constrain W h) 0).elems.dropLast }),
      len := (constrain W h).len - 1 } with hh'
  have hdrop : (bucketAt (constrain W h) 0).elems.dropLast = ys := by
    rw [hys]; exact List.dropLast_concat
  have h0len : 0 < (constrain W h).buckets.length := by
    rw [hwf'.nbuckets]; omega
  have hbk' : ∀ j, bucketAt h' j =
      if j = 0 then { bucketAt (constrain W h) 0 with elems := ys }
      else bucketAt (constrain W h) j := by
    intro j
    show (modifyIdx (constrain W h).buckets 0 _).getD j Bucket.empty = _
    by_cases hj : j = 0
    · subst hj
      rw [if_pos rfl, getD_modifyIdx_self _ _ _ _ h0len]
      rw [← hdrop]
    · rw [if_neg hj, getD_modifyIdx_ne _ _ _ _ _ hj]
      rfl
  have hmapel' : h'.buckets.map Bucket.elems = (List.range (W + 1)).map
      (fun j => if j = 0 then ys else (bucketAt (constrain W h) j).elems) := by
    apply buckets_map_elems h' (W + 1) _ (by
      show (modifyIdx (constrain W h).buckets 0 _).length = W + 1
      rw [modifyIdx_length]; exact hwf'.nbuckets)
    intro j _
    rw [hbk' j]
    by_cases hj : j = 0
    · subst hj; rw [if_pos rfl, if_pos rfl]
    · rw [if_neg hj, if_neg hj]
  have hmapelc : (constrain W h).buckets.map Bucket.elems =
      (List.range (W + 1)).map
        (fun j => (bucketAt (constrain W h) j).elems) :=
    buckets_map_elems _ _ _ hwf'.nbuckets (fun j _ => rfl)
  have hpermc : (allPairs (constrain W h)).Perm (e :: allPairs h') := by
    unfold allPairs
    have hinit' : h'.initial = (constrain W h).initial := rfl
    rw [hinit', hmapel', hmapelc]
    have hsplit : (List.range (W + 1)).map
        (fun j => (bucketAt (constrain W h) j).elems) =
        ((bucketAt (constrain W h) 0).elems) ::
          ((List.range W).map
            (fun j => (bucketAt (constrain W h) (j + 1)).elems)) := by
      rw [List.range_succ_eq_map]
      simp [Function.comp]
    have hsplit' : (List.range (W + 1)).map
        (fun j => if j = 0 then ys
          else (bucketAt (constrain W h) j).elems) =
        ys :: ((List.range W).map
          (fun j => (bucketAt (constrain W h) (j + 1)).elems)) := by
      rw [List.range_succ_eq_map]
      simp [Function.comp]
    rw [hsplit, hsplit', List.flatten_cons, List.flatten_cons, hys]
    set I := (constrain W h).initial.elems
    set F := ((List.range W).map
      (fun j => (bucketAt (constrain W h) (j + 1)).elems)).flatten
    show (I ++ ((ys ++ [e]) ++ F)).Perm (e :: (I ++ (ys ++ F)))
    have h1 : I ++ ((ys ++ [e]) ++ F) = (I ++ ys) ++ (e :: F) := by
      simp [List.append_assoc]
    have h2 : e :: (I ++ (ys ++ F)) = e :: ((I ++ ys) ++ F) := by
      simp [List.append_assoc]
    rw [h1, h2]
    exact List.perm_middle
  refine ⟨e, by rw [hpop], ?_, by rw [hpop, hkey]; exact ht', ?_, ?_, ?_, ?_⟩
  · -- WF of the popped heap
    rw [hpop]
    refine ⟨?_, ?_, ?_, ?_, ?_⟩
    · show (modifyIdx (constrain W h).buckets 0 _).length = W + 1
      rw [modifyIdx_length]
      exact hwf'.nbuckets
    · show (constrain W h).len - 1 = entryCount h'
      have hcount : entryCount (constrain W h) = entryCount h' + 1 := by
        unfold entryCount
        rw [hpermc.length_eq]
        rfl
      rw [hwf'.len_eq, hcount]
      omega
    · exact hwf'.init_max
    · exact hwf'.init_keys
    · right
      refine ⟨t', ht', htW, hinit, ?_, ?_⟩
      · intro j hj
        have hbj := hbk' j
        rw [if_neg (by omega)] at hbj
        show maxOK (bucketAt h' j)
        rw [hbj]
        exact hmax j hj
      · intro j kv hkv
        show _ ∧ _ ∧ _
        have hbj := hbk' j
        by_cases hj : j = 0
        · subst hj
          rw [if_pos rfl] at hbj
          have hkv' : kv ∈ (bucketAt (constrain W h) 0).elems := by
            rw [hys]
            have : kv ∈ ys := by
              have hb := hbj ▸ hkv
              exact hb
            exact List.mem_append.mpr (Or.inl this)
          exact hentries 0 kv hkv'
        · rw [if_neg hj] at hbj
          exact hentries j kv (hbj ▸ hkv)
  · rw [hpop]
    exact hperm.symm.trans hpermc
  · intro kv hkv
    rw [hkey]
    exact keys_le_top hwf' ht' kv (hperm.symm.mem_iff.mp hkv)
  · rw [hpop]
    show entryCount h' = entryCount h - 1
    have hcount : entryCount (constrain W h) = entryCount h' + 1 := by
      unfold entryCount
      rw [hpermc.length_eq]
      rfl
    have hch : entryCount (constrain W h) = entryCount h := by
      unfold entryCount
      exact hperm.length_eq
    omega
  · rw [hpop]
    show (constrain W h).len - 1 = h.len - 1
    have hch : entryCount (constrain W h) = entryCount h := by
      unfold entryCount
      exact hperm.length_eq
    rw [hwf'.len_eq, hch, hwf.len_eq]

/-! ## Behaviour of `push` -/

theorem append_singleton_perm (a : α) (X : List α) :
    (X ++ [a]).Perm (a :: X) := by
  have h := @List.perm_middle α a X []
  rw [List.append_nil] at h
  exact h

theorem push_nocheck_allPairs_perm (W : Nat) (h : HeapMap V) (k : Nat)
    (v : V) (t : Nat) (hlen : h.buckets.length = W + 1) :
    (allPairs (push_nocheck W h k v t)).Perm ((k, v) :: allPairs h) := by
  set d := radix_distance W k t with hd
  have hdW : d < W + 1 := Nat.lt_succ_of_le (radix_distance_le W k t)
  have hdlen : d < h.buckets.length := by rw [hlen]; exact hdW
  have hmapnew : (push_nocheck W h k v t).buckets.map Bucket.elems =
      (List.range (W + 1)).map (fun j => if j = d
        then (bucketAt h j).elems ++ [(k, v)] else (bucketAt h j).elems) := by
    apply buckets_map_elems _ (W + 1) _ (by
      rw [push_nocheck_nbuckets]; exact hlen)
    intro j _
    rw [bucketAt_push_nocheck W h k v t hdlen j]
    by_cases hj : j = d
    · rw [if_pos hj, if_pos hj]
      rfl
    · rw [if_neg hj, if_neg hj]
  have hmapold : h.buckets.map Bucket.elems =
      (List.range (W + 1)).map (fun j => (bucketAt h j).elems) :=
    buckets_map_elems _ _ _ hlen (fun j _ => rfl)
  have hcongr : (List.range (W + 1)).map (fun j => if j = d then []
        else (if j = d then (bucketAt h j).elems ++ [(k, v)]
          else (bucketAt h j).elems)) =
      (List.range (W + 1)).map (fun j => if j = d then []
        else (bucketAt h j).elems) := by
    apply List.map_congr_left
    intro j _
    by_cases hj : j = d
    · rw [if_pos hj, if_pos hj]
    · rw [if_neg hj, if_neg hj, if_neg hj]
  have h1 : (((push_nocheck W h k v t).buckets.map Bucket.elems).flatten).Perm
      (((List.range (W + 1)).map (fun j => if j = d then []
        else (bucketAt h j).elems)).flatten ++
        ((bucketAt h d).elems ++ [(k, v)])) := by
    rw [hmapnew]
    have := flatten_map_eq_update (W + 1) d hdW
      (fun j => if j = d then (bucketAt h j).elems ++ [(k, v)]
        else (bucketAt h j).elems)
    rw [hcongr] at this
    simpa using this
  have h2 : ((h.buckets.map Bucket.elems).flatten).Perm
      (((List.range (W + 1)).map (fun j => if j = d then []
        else (bucketAt h j).elems)).flatten ++ (bucketAt h d).elems) := by
    rw [hmapold]
    exact flatten_map_eq_update (W + 1) d hdW _
  unfold allPairs
  have hinit : (push_nocheck W h k v t).initial = h.initial := rfl
  rw [hinit]
  refine List.Perm.trans (List.Perm.append_left _ h1) ?_
  set E := ((List.range (W + 1)).map (fun j => if j = d then []
    else (bucketAt h j).elems)).flatten
  set I := h.initial.elems
  set D := (bucketAt h d).elems
  have hshape : I ++ (E ++ (D ++ [(k, v)])) = (I ++ (E ++ D)) ++ [(k, v)] := by
    simp [List.append_assoc]
  rw [hshape]
  refine List.Perm.trans (append_singleton_perm _ _) ?_
  refine List.Perm.cons _ ?_
  exact List.Perm.trans (List.Perm.append_left I h2.symm) (by rfl)

theorem push_error_spec (W : Nat) (h : HeapMap V) (k : Nat) (v : V)
    (t : Nat) (htop : h.top = some t) (hgt : t < k) :
    push W h k v = .error .OutOfOrderKey := by
  simp only [push, htop]
  rw [if_neg (by omega)]

theorem push_ok_spec (W : Nat) (h : HeapMap V) (k : Nat) (v : V)
    {s' : HeapMap V} (hwf : WF W h) (hk : k < 2 ^ W)
    (hok : push W h k v = .ok s') :
    WF W s' ∧ s'.top = h.top ∧
    (allPairs s').Perm ((k, v) :: allPairs h) ∧ s'.len = h.len + 1 := by
  rcases htop : h.top with _ | t
  · have hs' : s' = { h with initial := h.initial.push k v,
                             len := h.len + 1, top := none } := by
      simp only [push, htop] at hok
      exact (Except.ok.injEq _ _).mp hok.symm
    subst hs'
    have hperm : (allPairs { h with initial := h.initial.push k v,
                                    len := h.len + 1, top := none }).Perm
        ((k, v) :: allPairs h) := by
      unfold allPairs
      show ((h.initial.elems ++ [(k, v)]) ++ _).Perm _
      rw [List.append_assoc]
      exact List.perm_middle
    refine ⟨?_, rfl, hperm, rfl⟩
    rcases hwf.top_cases with ⟨_, hall⟩ | ⟨t', ht', _⟩
    · refine ⟨hwf.nbuckets, ?_, maxOK_push hwf.init_max k v, ?_, ?_⟩
      · show h.len + 1 = entryCount _
        unfold entryCount
        rw [hperm.length_eq]
        simp [hwf.len_eq, entryCount]
      · intro kv hkv
        show kv.1 < 2 ^ W
        rcases List.mem_append.mp hkv with hkv | hkv
        · exact hwf.init_keys kv hkv
        · simp at hkv
          rw [hkv]
          exact hk
      · left
        exact ⟨rfl, hall⟩
    · rw [htop] at ht'; exact Option.noConfusion ht'
  · rcases hwf.top_cases with ⟨hn, _⟩ | ⟨t', ht', htW, hinit, hmax, hentries⟩
    · rw [htop] at hn; exact Option.noConfusion hn
    have htt' : t = t' :=
      (Option.some.injEq _ _).mp (htop.symm.trans ht')
    subst htt'
    have hkt : k ≤ t := by
      by_contra hgt
      rw [push_error_spec W h k v t htop (by omega)] at hok
      exact Except.noConfusion hok
    have hs' : s' = { push_nocheck W h k v t with len := h.len + 1 } := by
      simp only [push, htop, if_pos hkt] at hok
      exact (Except.ok.injEq _ _).mp hok.symm
    subst hs'
    have hdlen : radix_distance W k t < h.buckets.length := by
      rw [hwf.nbuckets]; exact Nat.lt_succ_of_le (radix_distance_le W k t)
    have hperm : (allPairs { push_nocheck W h k v t with
        len := h.len + 1 }).Perm ((k, v) :: allPairs h) := by
      have hsame : allPairs { push_nocheck W h k v t with
          len := h.len + 1 } = allPairs (push_nocheck W h k v t) := rfl
      rw [hsame]
      exact push_nocheck_allPairs_perm W h k v t hwf.nbuckets
    refine ⟨?_, ?_, hperm, rfl⟩
    case refine_2 =>
      show (push_nocheck W h k v t).top = some t
      rw [push_nocheck_top]
      exact htop
    refine ⟨?_, ?_, ?_, ?_, ?_⟩
    · show (push_nocheck W h k v t).buckets.length = W + 1
      rw [push_nocheck_nbuckets]
      exact hwf.nbuckets
    · show h.len + 1 = entryCount _
      unfold entryCount
      rw [hperm.length_eq]
      simp [hwf.len_eq, entryCount]
    · exact hwf.init_max
    · exact hwf.init_keys
    · right
      refine ⟨t, htop, htW, hinit, ?_, ?_⟩
      · intro j hj
        have hbj : bucketAt { push_nocheck W h k v t with
            len := h.len + 1 } j = bucketAt (push_nocheck W h k v t) j := rfl
        rw [hbj, bucketAt_push_nocheck W h k v t hdlen j]
        by_cases hjd : j = radix_distance W k t
        · rw [if_pos hjd]
          exact maxOK_push (hmax j hj) k v
        · rw [if_neg hjd]
          exact hmax j hj
      · intro j kv hkv
        have hbj : bucketAt { push_nocheck W h k v t with
            len := h.len + 1 } j = bucketAt (push_nocheck W h k v t) j := rfl
        rw [hbj, bucketAt_push_nocheck W h k v t hdlen j] at hkv
        by_cases hjd : j = radix_distance W k t
        · rw [if_pos hjd] at hkv
          have hkv' : kv ∈ (bucketAt h j).elems ++ [(k, v)] := hkv
          rcases List.mem_append.mp hkv' with hold | hnew
          · exact hentries j kv hold
          · simp at hnew
            rw [hnew]
            exact ⟨hk, hkt, hjd.symm⟩
        · rw [if_neg hjd] at hkv
          exact hentries j kv hkv

/-! ## Draining the heap by repeated `pop` -/

theorem drainPops_spec (W : Nat) :
    ∀ (fuel : Nat) (h : HeapMap V), WF W h → entryCount h ≤ fuel →
    (drainPops W fuel h).Perm (allPairs h) ∧
    List.Sorted (fun a b : Nat => b ≤ a)
      ((drainPops W fuel h).map Prod.fst) := by
  intro fuel
  induction fuel with
  | zero =>
    intro h hwf hcount
    have hc : entryCount h = 0 := by omega
    have hap : allPairs h = [] := List.length_eq_zero.mp hc
    constructor
    · rw [hap]; rfl
    · simp [drainPops]
  | succ fuel ih =>
    intro h hwf hcount
    by_cases hc : entryCount h = 0
    · have hpop := pop_of_count_zero W h hwf hc
      have hap : allPairs h = [] := List.length_eq_zero.mp hc
      have hdrain : drainPops W (fuel + 1) h = [] := by
        show (match pop W h with
          | (none, _) => []
          | (some kv, h') => kv :: drainPops W fuel h') = []
        rw [hpop]
      rw [hdrain, hap]
      exact ⟨List.Perm.refl [], by simp⟩
    · obtain ⟨e, h1, hwf2, htop2, hperm2, hmax2, hcount2, _⟩ :=
        pop_spec W h hwf hc
      have hps : pop W h = (some e, (pop W h).2) := by
        rw [← h1]
      have hdrain : drainPops W (fuel + 1) h =
          e :: drainPops W fuel (pop W h).2 := by
        show (match pop W h with
          | (none, _) => []
          | (some kv, h') => kv :: drainPops W fuel h') = _
        rw [hps]
      obtain ⟨ihperm, ihsort⟩ := ih (pop W h).2 hwf2 (by omega)
      rw [hdrain]
      constructor
      · exact (List.Perm.cons e ihperm).trans hperm2.symm
      · rw [List.map_cons]
        rw [List.sorted_cons]
        refine ⟨?_, ihsort⟩
        intro b hb
        rcases List.mem_map.mp hb with ⟨kv, hkv, rfl⟩
        have hkv2 : kv ∈ allPairs (pop W h).2 := ihperm.mem_iff.mp hkv
        have hkvh : kv ∈ allPairs h :=
          hperm2.mem_iff.mpr (List.mem_cons.mpr (Or.inr hkv2))
        exact hmax2 kv hkvh

/-! ## Claim C6: the radix metric laws -/

/-- **C6.** For every key type implementing the `Radix` capability (the
fixed-width integers, the unit type, the `Reverse` and `Wrapping` wrappers,
the non-NaN float wrappers represented by their IEEE bit patterns, and
tuples): `radix_distance(a, a) = 0`; `radix_distance(a, b) =
radix_distance(b, a)`; for bitwise-complementary `a, b` of width `W`,
`radix_distance(a, b) = W`; and `radix_distance(a, b) =
RADIX_BITS - radix_similarity(a, b)`.  The wrapper and tuple instances are
stated for arbitrary lawful component metrics, so the laws cover every
composite instance the crate generates. -/
theorem radix_metric_laws :
    (∀ W : Nat, DistLaws (intRadix W) (complW W)) ∧
    DistLaws unitRadix (fun _ _ => True) ∧
    (∀ (K : Type) (r : RadixT K) (c : K → K → Prop),
      SimLaws r c → DistLaws (reverseRadix r) c) ∧
    (∀ (K : Type) (r : RadixT K) (c : K → K → Prop),
      SimLaws r c → DistLaws (wrappingRadix r) c) ∧
    (∀ W : Nat, DistLaws (floatRadix W) (complW W)) ∧
    (∀ (A B : Type) (r₁ : RadixT A) (r₂ : RadixT B)
      (c₁ : A → A → Prop) (c₂ : B → B → Prop),
      SimLaws r₁ c₁ → SimLaws r₂ c₂ →
      DistLaws (pairRadix r₁ r₂) (fun a b => c₁ a.1 b.1 ∧ c₂ a.2 b.2)) ∧
    (∀ (A B C : Type) (r₁ : RadixT A) (r₂ : RadixT B) (r₃ : RadixT C)
      (c₁ : A → A → Prop) (c₂ : B → B → Prop) (c₃ : C → C → Prop),
      SimLaws r₁ c₁ → SimLaws r₂ c₂ → SimLaws r₃ c₃ →
      DistLaws (tripleRadix r₁ r₂ r₃)
        (fun a b => c₁ a.1 b.1 ∧ c₂ a.2.1 b.2.1 ∧ c₃ a.2.2 b.2.2)) := by
  refine ⟨?_, ?_, ?_, ?_, ?_, ?_, ?_⟩
  · exact fun W => distLaws_of_simLaws (intRadix_simLaws W)
  · exact distLaws_of_simLaws unitRadix_simLaws
  · exact fun K r c hr => distLaws_of_simLaws (reverseRadix_simLaws hr)
  · exact fun K r c hr => distLaws_of_simLaws (wrappingRadix_simLaws hr)
  · exact fun W => distLaws_of_simLaws (floatRadix_simLaws W)
  · exact fun A B r₁ r₂ c₁ c₂ h₁ h₂ =>
      distLaws_of_simLaws (pairRadix_simLaws h₁ h₂)
  · exact fun A B C r₁ r₂ r₃ c₁ c₂ c₃ h₁ h₂ h₃ =>
      distLaws_of_simLaws (tripleRadix_simLaws h₁ h₂ h₃)

/-- Witness for C6: the laws instantiated at concrete inputs, discharging
the lawfulness hypotheses of the wrapper and tuple conjuncts with the
8-bit integer instance. -/
theorem radix_metric_laws_witness :
    (intRadix 8).dist 5 5 = 0 ∧
    (intRadix 8).dist 5 250 = 8 ∧
    (reverseRadix (intRadix 8)).dist 3 7 =
      (reverseRadix (intRadix 8)).dist 7 3 ∧
    (pairRadix (intRadix 8) (intRadix 8)).dist (3, 4) (3, 4) = 0 := by
  refine ⟨?_, ?_, ?_, ?_⟩
  · exact (radix_metric_laws.1 8).1 5
  · exact (radix_metric_laws.1 8).2.2.1 5 250 (show (5 : Nat) ^^^ 250 = 2 ^ 8 - 1 by decide)
  · exact (radix_metric_laws.2.2.1 Nat (intRadix 8) (complW 8)
      (intRadix_simLaws 8)).2.1 3 7
  · exact (radix_metric_laws.2.2.2.2.2.1 Nat Nat (intRadix 8) (intRadix 8)
      (complW 8) (complW 8) (intRadix_simLaws 8) (intRadix_simLaws 8)).1
      (3, 4)

/-! ## Claim C7: tuple similarity is the lexicographic walk -/

/-- **C7.** For tuple keys, `radix_similarity` walks the components in
order, accumulating each component's similarity, and returns the
accumulated similarity at the first component whose similarity is less
than that component's own `RADIX_BITS` (returning the full sum when no
component differs); and a tuple's `RADIX_BITS` is the sum of its
components' `RADIX_BITS`.  Stated for the pair and triple instances via
the spec's walk `lexWalk` over the per-component `(similarity, bits)`
pairs. -/
theorem tuple_similarity_lexicographic :
    (∀ (A B : Type) (r₁ : RadixT A) (r₂ : RadixT B) (a b : A × B),
      (pairRadix r₁ r₂).sim a b =
        lexWalk [(r₁.sim a.1 b.1, r₁.bits), (r₂.sim a.2 b.2, r₂.bits)] ∧
      (pairRadix r₁ r₂).bits = r₁.bits + r₂.bits) ∧
    (∀ (A B C : Type) (r₁ : RadixT A) (r₂ : RadixT B) (r₃ : RadixT C)
      (a b : A × B × C),
      (tripleRadix r₁ r₂ r₃).sim a b =
        lexWalk [(r₁.sim a.1 b.1, r₁.bits), (r₂.sim a.2.1 b.2.1, r₂.bits),
          (r₃.sim a.2.2 b.2.2, r₃.bits)] ∧
      (tripleRadix r₁ r₂ r₃).bits = r₁.bits + r₂.bits + r₃.bits) := by
  constructor
  · intro A B r₁ r₂ a b
    refine ⟨?_, rfl⟩
    show (pairRadix r₁ r₂).sim a b = _
    simp only [pairRadix, lexWalk]
    by_cases h₁ : r₁.sim a.1 b.1 < r₁.bits
    · rw [if_pos h₁, if_pos h₁]
    · rw [if_neg h₁, if_neg h₁]
      by_cases h₂ : r₂.sim a.2 b.2 < r₂.bits
      · rw [if_pos h₂, if_pos h₂]
      · rw [if_neg h₂, if_neg h₂]
        omega
  · intro A B C r₁ r₂ r₃ a b
    refine ⟨?_, rfl⟩
    show (tripleRadix r₁ r₂ r₃).sim a b = _
    simp only [tripleRadix, lexWalk]
    by_cases h₁ : r₁.sim a.1 b.1 < r₁.bits
    · rw [if_pos h₁, if_pos h₁]
    · rw [if_neg h₁, if_neg h₁]
      by_cases h₂ : r₂.sim a.2.1 b.2.1 < r₂.bits
      · rw [if_pos h₂, if_pos h₂]
      · rw [if_neg h₂, if_neg h₂]
        by_cases h₃ : r₃.sim a.2.2 b.2.2 < r₃.bits
        · rw [if_pos h₃, if_pos h₃]
          omega
        · rw [if_neg h₃, if_neg h₃]
          omega

/-! ## Claim C1: sort equivalence -/

theorem runOps_cons (W : Nat) (h : HeapMap V) (op : HeapOp V)
    (ops : List (HeapOp V)) :
    runOps W h (op :: ops) = runOps W (applyOp W h op) ops := rfl

theorem runOps_pushes_top_none (W : Nat) (l : List (Nat × V)) :
    ∀ (s : HeapMap V), s.top = none →
    runOps W s (l.map (fun kv => HeapOp.push kv.1 kv.2)) =
      { s with initial := s.initial.pushAll l, len := s.len + l.length } := by
  induction l with
  | nil =>
    intro s _
    show s = { s with initial := s.initial, len := s.len + 0 }
    rfl
  | cons kv l ih =>
    intro s htop
    rw [List.map_cons, runOps_cons]
    have happ : applyOp W s (.push kv.1 kv.2) =
        { s with initial := s.initial.push kv.1 kv.2,
                 len := s.len + 1, top := none } := by
      simp only [applyOp, push, htop]
    rw [happ, ih _ rfl]
    have hlen : s.len + 1 + l.length = s.len + (l.length + 1) := by omega
    show ({ s with
      initial := (s.initial.push kv.1 kv.2).pushAll l,
      len := s.len + 1 + l.length, top := none } : HeapMap V) = _
    rw [hlen, htop]
    rfl

/-- The heap obtained by pushing the entries of `l`, in order, onto a
fresh heap with top unset. -/
def heapOfList (W : Nat) (l : List (Nat × V)) : HeapMap V :=
  runOps W (new V W) (l.map (fun kv => HeapOp.push kv.1 kv.2))

theorem heapOfList_eq (W : Nat) (l : List (Nat × V)) :
    heapOfList W l = { new V W with initial := Bucket.pushAll Bucket.empty l,
                                    len := l.length } := by
  unfold heapOfList
  rw [runOps_pushes_top_none W l (new V W) rfl]
  show ({ new V W with initial := (new V W).initial.pushAll l,
                       len := 0 + l.length } : HeapMap V) = _
  rw [Nat.zero_add]
  rfl

theorem heapOfList_allPairs (W : Nat) (l : List (Nat × V)) :
    allPairs (heapOfList W l) = l := by
  rw [heapOfList_eq]
  unfold allPairs
  have hflat : ((List.replicate (W + 1)
      (Bucket.empty : Bucket V)).map Bucket.elems).flatten = [] := by
    apply flatten_elems_nil
    intro b hb
    rcases List.eq_of_mem_replicate hb with rfl
    rfl
  show (Bucket.pushAll Bucket.empty l).elems ++
    ((List.replicate (W + 1) Bucket.empty).map Bucket.elems).flatten = l
  rw [hflat, Bucket.pushAll_elems, List.append_nil]
  rfl

theorem heapOfList_WF (W : Nat) (l : List (Nat × V))
    (hkeys : ∀ kv ∈ l, kv.1 < 2 ^ W) : WF W (heapOfList W l) := by
  have hap := heapOfList_allPairs W l
  rw [heapOfList_eq] at hap ⊢
  refine ⟨by simp [new], ?_, ?_, ?_, ?_⟩
  · show l.length = entryCount _
    unfold entryCount
    rw [hap]
  · exact maxOK_pushAll maxOK_empty l
  · show ∀ kv ∈ (Bucket.pushAll Bucket.empty l).elems, kv.1 < 2 ^ W
    rw [Bucket.pushAll_elems]
    intro kv hkv
    refine hkeys kv ?_
    simpa [Bucket.empty] using hkv
  · left
    refine ⟨rfl, ?_⟩
    intro b hb
    exact List.eq_of_mem_replicate hb

/-- **C1.** For every finite multiset of keys (each paired with an
arbitrary tag) pushed in any order onto a fresh heap with top unset, the
sequence of keys produced by repeatedly calling `pop` until it returns
`None` (any fuel bound at least the number of entries suffices) is a
permutation of that multiset of keys and is sorted in descending order —
i.e. it equals the multiset sorted in descending key order. -/
theorem drain_sorted_descending (W : Nat) (V : Type) (l : List (Nat × V))
    (hkeys : ∀ kv ∈ l, kv.1 < 2 ^ W) (fuel : Nat)
    (hfuel : l.length ≤ fuel) :
    ((drainPops W fuel (heapOfList W l)).map Prod.fst).Perm
      (l.map Prod.fst) ∧
    List.Sorted (· ≥ ·) ((drainPops W fuel (heapOfList W l)).map Prod.fst)
    := by
  have hwf := heapOfList_WF W l hkeys
  have hcount : entryCount (heapOfList W l) = l.length := by
    unfold entryCount
    rw [heapOfList_allPairs]
  obtain ⟨hperm, hsort⟩ := drainPops_spec W fuel (heapOfList W l) hwf
    (by omega)
  constructor
  · have hm := hperm.map Prod.fst
    rw [heapOfList_allPairs] at hm
    exact hm
  · exact hsort

/-- Witness for C1: draining the heap built from pushes of keys
7, 2, 9, 2 yields the keys in descending order. -/
theorem drain_sorted_descending_witness :
    ((drainPops 8 4 (heapOfList 8 [(7, 0), (2, 1), (9, 2), (2, 3)])).map
      Prod.fst).Perm ([7, 2, 9, 2]) ∧
    List.Sorted (· ≥ ·)
      ((drainPops 8 4 (heapOfList 8 [(7, 0), (2, 1), (9, 2), (2, 3)])).map
        Prod.fst) :=
  drain_sorted_descending 8 Nat [(7, 0), (2, 1), (9, 2), (2, 3)]
    (by decide) 4 (by decide)

/-! ## Claim C3: top monotonicity across operation sequences -/

theorem applyOp_WF (W : Nat) (h : HeapMap V) (op : HeapOp V) (hwf : WF W h)
    (hop : ∀ k v, op = .push k v → k < 2 ^ W) :
    WF W (applyOp W h op) ∧
    (∀ t, h.top = some t →
      ∃ t', (applyOp W h op).top = some t' ∧ t' ≤ t) := by
  cases op with
  | push k v =>
    cases hpush : push W h k v with
    | ok s' =>
      have happ : applyOp W h (.push k v) = s' := by
        simp [applyOp, hpush]
      obtain ⟨hwf', htop', _, _⟩ :=
        push_ok_spec W h k v hwf (hop k v rfl) hpush
      rw [happ]
      exact ⟨hwf', fun t ht => ⟨t, htop'.trans ht, le_refl t⟩⟩
    | error e =>
      have happ : applyOp W h (.push k v) = h := by
        simp [applyOp, hpush]
      rw [happ]
      exact ⟨hwf, fun t ht => ⟨t, ht, le_refl t⟩⟩
  | pop =>
    by_cases hc : entryCount h = 0
    · have hpop := pop_of_count_zero W h hwf hc
      have happ : applyOp W h .pop = h := by
        simp only [applyOp, hpop]
      rw [happ]
      exact ⟨hwf, fun t ht => ⟨t, ht, le_refl t⟩⟩
    · obtain ⟨e, _, hwf2, htop2, hperm2, hmax2, _, _⟩ := pop_spec W h hwf hc
      refine ⟨hwf2, ?_⟩
      intro t ht
      refine ⟨e.1, htop2, ?_⟩
      have hemem : e ∈ allPairs h :=
        hperm2.mem_iff.mpr (List.mem_cons.mpr (Or.inl rfl))
      exact keys_le_top hwf ht e hemem

/-- Key bound required of an operation sequence: every pushed key fits in
`W` bits (in Rust this is enforced by the key type itself). -/
def ValidOps (W : Nat) (ops : List (HeapOp V)) : Prop :=
  ∀ k v, HeapOp.push k v ∈ ops → k < 2 ^ W

theorem runOps_WF (W : Nat) (ops : List (HeapOp V)) :
    ∀ (h : HeapMap V), WF W h → ValidOps W ops →
    WF W (runOps W h ops) ∧
    (∀ t, h.top = some t →
      ∃ t', (runOps W h ops).top = some t' ∧ t' ≤ t) := by
  induction ops with
  | nil => exact fun h hwf _ => ⟨hwf, fun t ht => ⟨t, ht, le_refl t⟩⟩
  | cons op ops ih =>
    intro h hwf hval
    obtain ⟨hwf1, htop1⟩ := applyOp_WF W h op hwf
      (fun k v he => hval k v (by rw [he]; exact List.mem_cons_self _ _))
    obtain ⟨hwf2, htop2⟩ := ih (applyOp W h op) hwf1
      (fun k v hm => hval k v (List.mem_cons.mpr (Or.inr hm)))
    rw [runOps_cons]
    refine ⟨hwf2, ?_⟩
    intro t ht
    obtain ⟨t1, ht1, hle1⟩ := htop1 t ht
    obtain ⟨t2, ht2, hle2⟩ := htop2 t1 ht1
    exact ⟨t2, ht2, le_trans hle2 hle1⟩

/-- **C3.** For every sequence of push and pop operations on a (well-formed,
never cleared) heap, once `top()` returns `Some`, the successive `Some`
values returned by `top()` form a non-increasing sequence: if `top()` is
`Some a` after running `ops₁` and `Some b` after further running `ops₂`,
then `b ≤ a`. -/
theorem top_monotone (W : Nat) (V : Type) (s : HeapMap V)
    (ops₁ ops₂ : List (HeapOp V)) (hwf : WF W s)
    (hval₁ : ValidOps W ops₁) (hval₂ : ValidOps W ops₂) (a b : Nat)
    (ha : (runOps W s ops₁).top = some a)
    (hb : (runOps W (runOps W s ops₁) ops₂).top = some b) : b ≤ a := by
  obtain ⟨hwf1, _⟩ := runOps_WF W ops₁ s hwf hval₁
  obtain ⟨_, htop2⟩ := runOps_WF W ops₂ (runOps W s ops₁) hwf1 hval₂
  obtain ⟨t', ht', hle⟩ := htop2 a ha
  have hbt : b = t' := by
    have hh := ht'.symm.trans hb
    exact ((Option.some.injEq _ _).mp hh).symm
  omega

/-- Witness for C3: after pushing key 5 and popping it, `top()` is
`Some 5`; one more `pop` leaves it at `Some 5`, and `5 ≤ 5`. -/
theorem top_monotone_witness : (5 : Nat) ≤ 5 :=
  top_monotone 8 Nat (new Nat 8) [.push 5 0, .pop] [.pop]
    (WF_new Nat 8)
    (by intro k v hm; simp at hm; omega)
    (by intro k v hm; simp at hm)
    5 5 (by decide) (by decide)

/-! ## Reachable states; claims C5 and C10 -/

theorem WF_clear (W : Nat) (h : HeapMap V) (hwf : WF W h) :
    WF W (clear h) := by
  have hall : ∀ b ∈ (clear h).buckets, b = Bucket.empty := by
    intro b hb
    rcases List.mem_map.mp hb with ⟨b', _, rfl⟩
    rfl
  have hflat : (((clear h).buckets).map Bucket.elems).flatten = [] :=
    flatten_elems_nil _ (fun b hb => by rw [hall b hb]; rfl)
  refine ⟨?_, ?_, maxOK_empty, ?_, ?_⟩
  · show (h.buckets.map Bucket.clear).length = W + 1
    rw [List.length_map]
    exact hwf.nbuckets
  · show (0 : Nat) = entryCount (clear h)
    unfold entryCount allPairs
    rw [hflat]
    rfl
  · intro kv hkv
    simp [clear, Bucket.clear] at hkv
  · left
    exact ⟨rfl, hall⟩

theorem WF_clear_to (W : Nat) (h : HeapMap V) (t : Nat) (ht : t < 2 ^ W)
    (hwf : WF W h) : WF W (clear_to h t) := by
  have hwfc := WF_clear W h hwf
  have hall : ∀ b ∈ (clear_to h t).buckets, b = Bucket.empty := by
    intro b hb
    rcases List.mem_map.mp hb with ⟨b', _, rfl⟩
    rfl
  have hbe : ∀ j, bucketAt (clear_to h t) j = Bucket.empty :=
    bucketAt_empty_of_forall _ hall
  refine ⟨hwfc.nbuckets, hwfc.len_eq, maxOK_empty, ?_, ?_⟩
  · intro kv hkv
    simp [clear_to, clear, Bucket.clear] at hkv
  · right
    refine ⟨t, rfl, ht, rfl, ?_, ?_⟩
    · intro i _
      rw [hbe i]
      exact maxOK_empty
    · intro i kv hkv
      rw [hbe i] at hkv
      simp [Bucket.empty] at hkv

/-- The states reachable from the two constructors through the public
mutating operations. -/
inductive Reachable (W : Nat) : HeapMap V → Prop where
  | fresh : Reachable W (new V W)
  | fresh_at (t : Nat) : t < 2 ^ W → Reachable W (new_at V W t)
  | push_step (s : HeapMap V) (k : Nat) (v : V) :
      Reachable W s → k < 2 ^ W → Reachable W (applyOp W s (.push k v))
  | pop_step (s : HeapMap V) : Reachable W s → Reachable W (applyOp W s .pop)
  | constrain_step (s : HeapMap V) :
      Reachable W s → Reachable W (constrain W s)
  | clear_step (s : HeapMap V) : Reachable W s → Reachable W (clear s)
  | clear_to_step (s : HeapMap V) (t : Nat) :
      Reachable W s → t < 2 ^ W → Reachable W (clear_to s t)

theorem Reachable_WF {W : Nat} {s : HeapMap V} (hr : Reachable W s) :
    WF W s := by
  induction hr with
  | fresh => exact WF_new V W
  | fresh_at t ht => exact WF_new_at V W t ht
  | push_step s k v _ hk ih =>
    exact (applyOp_WF W s (.push k v) ih (fun k' v' he => by
      cases he
      exact hk)).1
  | pop_step s _ ih =>
    exact (applyOp_WF W s .pop ih (fun k' v' he => HeapOp.noConfusion he)).1
  | constrain_step s _ ih => exact (constrain_props W s ih).1
  | clear_step s _ ih => exact WF_clear W s ih
  | clear_to_step s t _ ht ih => exact WF_clear_to W s t ht ih

/-- The bucket-placement invariant of the spec (I1 and I2): entries in
`buckets[d]` with `d > 0` sit at radix distance exactly `d` from the
current top (which must be set), and entries in `buckets[0]` have the top
key itself. -/
def PlacementInv (W : Nat) (h : HeapMap V) : Prop :=
  (∀ d, 0 < d → ∀ kv ∈ (bucketAt h d).elems,
    ∃ t, h.top = some t ∧ radix_distance W kv.1 t = d) ∧
  (∀ t, h.top = some t → ∀ kv ∈ (bucketAt h 0).elems, kv.1 = t)

theorem PlacementInv_of_WF {W : Nat} {h : HeapMap V} (hwf : WF W h) :
    PlacementInv W h := by
  rcases hwf.top_cases with ⟨hn, hall⟩ | ⟨t, ht, htW, _, _, hentries⟩
  · constructor
    · intro d _ kv hkv
      rw [bucketAt_empty_of_forall h hall d] at hkv
      simp [Bucket.empty] at hkv
    · intro t ht
      rw [hn] at ht
      exact Option.noConfusion ht
  · constructor
    · intro d _ kv hkv
      exact ⟨t, ht, (hentries d kv hkv).2.2⟩
    · intro t0 ht0 kv hkv
      have ht0t : t = t0 := (Option.some.injEq t t0).mp (ht.symm.trans ht0)
      subst ht0t
      obtain ⟨hkW, _, hkd⟩ := hentries 0 kv hkv
      exact (radix_distance_eq_zero_iff hkW htW).mp hkd

/-- **C5.** Every public operation preserves the bucket-placement
invariant: every state reachable from the constructors through the public
operations satisfies it — for every entry with key `k` residing in
`buckets[d]` with `d > 0`, `top` is `Some t` with
`radix_distance k t = d`, and whenever `top` is `Some t`, every entry in
`buckets[0]` has key `t`. -/
theorem reachable_placement_invariant (W : Nat) (V : Type)
    (s : HeapMap V) (hr : Reachable W s) : PlacementInv W s :=
  PlacementInv_of_WF (Reachable_WF hr)

/-- Witness for C5: the placement invariant holds for the concrete heap
obtained by pushing keys 9 and 5 and popping once. -/
theorem reachable_placement_invariant_witness :
    PlacementInv 8 (applyOp 8 (applyOp 8 (applyOp 8 (new Nat 8)
      (.push 9 0)) (.push 5 1)) .pop) :=
  reachable_placement_invariant 8 Nat _
    (Reachable.pop_step _ (Reachable.push_step _ 5 1
      (Reachable.push_step _ 9 0 Reachable.fresh (by decide)) (by decide)))

/-- **C10.** `constrain` is idempotent: on every reachable heap state,
calling `constrain` twice produces exactly the same state (`len`, `top`,
`initial` and all buckets included) as calling it once. -/
theorem constrain_idempotent (W : Nat) (V : Type) (s : HeapMap V)
    (hr : Reachable W s) : constrain W (constrain W s) = constrain W s :=
  constrain_idem W s (Reachable_WF hr)

/-- Witness for C10: idempotence at a concrete nonempty heap. -/
theorem constrain_idempotent_witness :
    constrain 8 (constrain 8 (applyOp 8 (new Nat 8) (.push 9 0))) =
      constrain 8 (applyOp 8 (new Nat 8) (.push 9 0)) :=
  constrain_idempotent 8 Nat _
    (Reachable.push_step _ 9 0 Reachable.fresh (by decide))

/-! ## Claim C2: rejecting keys above the top -/

/-- **C2.** For every heap whose top is `Some t` and every key `k > t`,
`push(k, v)` fails with `OutOfOrderKey` (the `assert!` panic in the Rust
source), and the failed push leaves the heap — its `len` and all stored
contents — unchanged. -/
theorem push_out_of_order (W : Nat) (V : Type) (h : HeapMap V)
    (k t : Nat) (v : V) (htop : h.top = some t) (hgt : t < k) :
    push W h k v = .error .OutOfOrderKey ∧ applyOp W h (.push k v) = h := by
  have herr := push_error_spec W h k v t htop hgt
  refine ⟨herr, ?_⟩
  simp only [applyOp, herr]

/-- Witness for C2: pushing key 7 onto a heap with top 5 fails and leaves
the heap unchanged. -/
theorem push_out_of_order_witness :
    push 8 (new_at Nat 8 5) 7 0 = .error .OutOfOrderKey ∧
    applyOp 8 (new_at Nat 8 5) (.push 7 0) = new_at Nat 8 5 :=
  push_out_of_order 8 Nat (new_at Nat 8 5) 7 5 0 rfl (by decide)

/-! ## Claim C4: the scan performed by `constrain` -/

/-- A concrete reachable heap on which the spec's "scan starting at 1"
description of `constrain` disagrees with the code: push key 3 twice, pop
once (top becomes 3, one entry with key 3 remains in bucket 0), then push
key 2 (landing in bucket 1). -/
def cexHeap : HeapMap Nat :=
  runOps 8 (new Nat 8) [.push 3 0, .push 3 1, .pop, .push 2 2]

/-- **C4 counterexample.** On `cexHeap` the top is `Some 3` and bucket 1 is
nonempty, so a scan for the first nonempty bucket *starting at index 1*
finds bucket 1 and the claim says `constrain` must promote that bucket's
cached max (2) to be the new top and drain the bucket.  The code scans
from index 0, finds the nonempty bucket 0 first, and changes nothing: the
state is unchanged and the top stays `Some 3 ≠ Some 2`. -/
theorem constrain_scan_counterexample :
    cexHeap.top = some 3 ∧
    (bucketAt cexHeap 1).elems = [(2, 2)] ∧
    (bucketAt cexHeap 1).max = some 2 ∧
    constrain 8 cexHeap = cexHeap ∧
    (constrain 8 cexHeap).top ≠ some 2 := by
  refine ⟨rfl, rfl, rfl, rfl, ?_⟩
  intro hcon
  have h3 : (some 3 : Option Nat) = some 2 := by
    rw [show (constrain 8 cexHeap).top = some 3 from rfl] at hcon
    exact hcon
  simp at h3

/-- **C4 (amended).** When top is `Some`, `constrain` scans the buckets in
increasing index order **starting at 0** for the first nonempty bucket; if
none is found, or the first one is at index 0, it changes nothing; if one
is found at index `i ≠ 0`, it takes that bucket's cached max `M` as the
new top, drains the bucket (it ends up empty), and re-inserts each drained
entry at its radix distance to `M`, where every re-inserted entry lands in
a bucket of index strictly less than `i`, and the entry that supplied the
new max lands at index 0. -/
theorem constrain_spec_amended (W : Nat) (V : Type) (h : HeapMap V)
    (t : Nat) (hwf : WF W h) (htop : h.top = some t) :
    (findNonempty h.buckets = none → constrain W h = h) ∧
    (findNonempty h.buckets = some 0 → constrain W h = h) ∧
    (∀ i, findNonempty h.buckets = some i → i ≠ 0 →
      ∃ M, (bucketAt h i).max = some M ∧
        (constrain W h).top = some M ∧
        (bucketAt (constrain W h) i).elems = [] ∧
        (∀ kv ∈ (bucketAt h i).elems, radix_distance W kv.1 M < i ∧
          kv ∈ (bucketAt (constrain W h) (radix_distance W kv.1 M)).elems) ∧
        (∃ v, (M, v) ∈ (bucketAt (constrain W h) 0).elems)) := by
  refine ⟨fun hf => constrain_find_none W h t htop hf,
    fun hf => constrain_find_zero W h t htop hf, ?_⟩
  intro i hfind hi
  obtain ⟨M, hM, ⟨v, hv⟩, hub, hMt, hMW, hMd, hc_top, _, _, _, hc_bk⟩ :=
    constrain_bucket_spec W h t i hwf htop hfind hi
  obtain ⟨hilen, _, hjlt⟩ := findNonempty_some h.buckets i hfind
  rcases hwf.top_cases with ⟨hn, _⟩ | ⟨t', ht', htW, _, _, hentries⟩
  · rw [htop] at hn; exact Option.noConfusion hn
  have htt' : t = t' := (Option.some.injEq t t').mp (htop.symm.trans ht')
  subst htt'
  have hdlt : ∀ kv ∈ (bucketAt h i).elems, radix_distance W kv.1 M < i := by
    intro kv hkv
    obtain ⟨hkW, _, hkd⟩ := hentries i kv hkv
    exact dist_lt_of_dist_eq hkW hMW htW hkd hMd hi
  have helems : ∀ j, (bucketAt (constrain W h) j).elems =
      (if j = i then [] else (bucketAt h j).elems) ++
        ((bucketAt h i).elems.filter
          (fun kv => radix_distance W kv.1 M = j)) := by
    intro j
    rw [hc_bk j, Bucket.pushAll_elems, apply_ite Bucket.elems]
    rfl
  refine ⟨M, hM, hc_top, ?_, ?_, ?_⟩
  · rw [helems i, if_pos rfl, List.nil_append, List.filter_eq_nil_iff]
    intro kv hkv
    have := hdlt kv hkv
    simp
    omega
  · intro kv hkv
    refine ⟨hdlt kv hkv, ?_⟩
    rw [helems (radix_distance W kv.1 M)]
    refine List.mem_append.mpr (Or.inr ?_)
    refine List.mem_filter.mpr ⟨hkv, by simp⟩
  · refine ⟨v, ?_⟩
    rw [helems 0]
    refine List.mem_append.mpr (Or.inr ?_)
    refine List.mem_filter.mpr ⟨hv, by simp [radix_distance_self]⟩

/-- Witness for C4 (amended): on the counterexample heap the first
nonempty bucket is bucket 0, so `constrain` changes nothing; and on a heap
whose only nonempty bucket is bucket 1, `constrain` promotes that bucket's
max. -/
theorem constrain_spec_amended_witness :
    constrain 8 cexHeap = cexHeap := by
  have hval : ValidOps 8 ([.push 3 0, .push 3 1, .pop, .push 2 2] :
      List (HeapOp Nat)) := by
    intro k v hm
    simp at hm
    omega
  have hwf : WF 8 cexHeap :=
    (runOps_WF 8 [.push 3 0, .push 3 1, .pop, .push 2 2] (new Nat 8)
      (WF_new Nat 8) hval).1
  exact (constrain_spec_amended 8 Nat cexHeap 3 hwf rfl).2.1 rfl

/-! ## Claim C9: `peek` (modelled from the spec) -/

/-- **C9.** The spec's `peek` operation (modelled from the spec, as no
`peek` exists in `src/`): it constrains only when `buckets[0]` is empty and
returns the last element of `buckets[0]` without removing it (that is the
definition of `peek` above); repeated calls are idempotent — a second
`peek` returns the same element and the same state, and `peek` does not
change which element the next `pop` removes. -/
theorem peek_idempotent (W : Nat) (V : Type) (h : HeapMap V)
    (hwf : WF W h) :
    peek W ((peek W h).2) = peek W h ∧
    (pop W ((peek W h).2)).1 = (pop W h).1 := by
  cases hb : (bucketAt h 0).is_empty with
  | false =>
    have hpk : peek W h = ((bucketAt h 0).elems.getLast?, h) := by
      unfold peek
      rw [hb]
      simp
    rw [hpk]
    exact ⟨hpk, rfl⟩
  | true =>
    have hpk : peek W h =
        ((bucketAt (constrain W h) 0).elems.getLast?, constrain W h) := by
      unfold peek
      rw [hb]
      simp
    have hidem := constrain_idem W h hwf
    rw [hpk]
    constructor
    · show peek W (constrain W h) = _
      by_cases hb1 : (bucketAt (constrain W h) 0).is_empty = true
      · have hpk1 : peek W (constrain W h) =
            ((bucketAt (constrain W (constrain W h)) 0).elems.getLast?,
              constrain W (constrain W h)) := by
          unfold peek
          rw [if_pos hb1]
        rw [hpk1, hidem]
      · have hpk1 : peek W (constrain W h) =
            ((bucketAt (constrain W h) 0).elems.getLast?,
              constrain W h) := by
          unfold peek
          rw [if_neg hb1]
        rw [hpk1]
    · show (pop W (constrain W h)).1 = (pop W h).1
      unfold pop
      rw [hidem]

/-! ## Claim C8: LIFO tie-break.  The values stored under one key `k` are
tracked in container order (`keyValues`); pushes append to that list,
`constrain` preserves it, and `pop` removes its last element. -/

theorem keyValues_split (k : Nat) (h : HeapMap V) :
    keyValues k h =
      ((h.initial.elems.filter (fun kv => kv.1 = k)).map Prod.snd) ++
      ((((h.buckets.map Bucket.elems).flatten).filter
        (fun kv => kv.1 = k)).map Prod.snd) := by
  unfold keyValues allPairs
  rw [List.filter_append, List.map_append]

theorem flatten_filter_k (n : Nat) (C : Nat → List (Nat × V)) (k d : Nat)
    (hd : d < n)
    (hother : ∀ j, j < n → j ≠ d → ∀ kv ∈ C j, kv.1 ≠ k) :
    (((List.range n).map C).flatten).filter (fun kv => kv.1 = k) =
      (C d).filter (fun kv => kv.1 = k) := by
  have hmem : d ∈ List.range n := List.mem_range.mpr hd
  obtain ⟨s, t, hst⟩ := List.append_of_mem hmem
  have hnd : (s ++ d :: t).Nodup := by
    rw [← hst]; exact List.nodup_range n
  have hnil : ∀ (js : List Nat), (∀ j ∈ js, j ∈ List.range n ∧ j ≠ d) →
      ((js.map C).flatten).filter (fun kv => kv.1 = k) = [] := by
    intro js hjs
    rw [List.filter_eq_nil_iff]
    intro kv hkv
    rw [List.mem_flatten] at hkv
    obtain ⟨le, hle, hkv⟩ := hkv
    rcases List.mem_map.mp hle with ⟨j, hj, rfl⟩
    obtain ⟨hjn, hjd⟩ := hjs j hj
    have := hother j (List.mem_range.mp hjn) hjd kv hkv
    simp [this]
  have hs : ∀ j ∈ s, j ∈ List.range n ∧ j ≠ d := by
    intro j hj
    refine ⟨by rw [hst]; exact List.mem_append.mpr (Or.inl hj), ?_⟩
    rcases List.nodup_append.mp hnd with ⟨_, _, hdisj⟩
    intro he
    exact List.disjoint_left.mp hdisj hj (by rw [he]; simp)
  have ht : ∀ j ∈ t, j ∈ List.range n ∧ j ≠ d := by
    intro j hj
    refine ⟨by rw [hst]; exact List.mem_append.mpr (Or.inr (by simp [hj])),
      ?_⟩
    rcases List.nodup_append.mp hnd with ⟨_, hnd2, _⟩
    intro he
    exact (List.nodup_cons.mp hnd2).1 (by rw [← he]; exact hj)
  rw [hst, List.map_append, List.flatten_append, List.filter_append,
    hnil s hs]
  simp only [List.map_cons, List.flatten_cons, List.filter_append,
    hnil t ht, List.nil_append, List.append_nil]

theorem keyValues_top_none {W : Nat} {h : HeapMap V} (hwf : WF W h)
    (htop : h.top = none) (k : Nat) :
    keyValues k h =
      (h.initial.elems.filter (fun kv => kv.1 = k)).map Prod.snd := by
  have hall : ∀ b ∈ h.buckets, b = Bucket.empty := by
    rcases hwf.top_cases with ⟨_, hb⟩ | ⟨t, ht, _⟩
    · exact hb
    · rw [htop] at ht; exact Option.noConfusion ht
  rw [keyValues_split,
    flatten_elems_nil _ (fun b hb => by rw [hall b hb]; rfl)]
  simp

theorem keyValues_eq_bucket {W : Nat} {h : HeapMap V} (hwf : WF W h)
    {t : Nat} (htop : h.top = some t) (k : Nat) :
    keyValues k h =
      ((bucketAt h (radix_distance W k t)).elems.filter
        (fun kv => kv.1 = k)).map Prod.snd := by
  rcases hwf.top_cases with ⟨hn, _⟩ | ⟨t', ht', _, hinit, _, hentries⟩
  · rw [htop] at hn; exact Option.noConfusion hn
  have htt' : t = t' := (Option.some.injEq t t').mp (htop.symm.trans ht')
  subst htt'
  have hmap := buckets_map_elems h (W + 1) (fun j => (bucketAt h j).elems)
    hwf.nbuckets (fun j _ => rfl)
  rw [keyValues_split, hinit, hmap,
    flatten_filter_k (W + 1) _ k (radix_distance W k t)
      (Nat.lt_succ_of_le (radix_distance_le W k t)) ?hother]
  · simp [Bucket.empty]
  case hother =>
    intro j _ hjd kv hkv he
    have hd := (hentries j kv hkv).2.2
    rw [he] at hd
    exact hjd hd.symm

theorem filter_k_bucket_nil {W : Nat} {h : HeapMap V} (hwf : WF W h)
    {t : Nat} (htop : h.top = some t) (k j : Nat)
    (hj : j ≠ radix_distance W k t) :
    (bucketAt h j).elems.filter (fun kv => kv.1 = k) = [] := by
  rcases hwf.top_cases with ⟨hn, _⟩ | ⟨t', ht', _, _, _, hentries⟩
  · rw [htop] at hn; exact Option.noConfusion hn
  have htt' : t = t' := (Option.some.injEq t t').mp (htop.symm.trans ht')
  subst htt'
  rw [List.filter_eq_nil_iff]
  intro kv hkv hcon
  simp only [decide_eq_true_eq] at hcon
  have hd := (hentries j kv hkv).2.2
  rw [hcon] at hd
  exact hj hd.symm

theorem filter_k_filter_sub (l : List (Nat × V)) (k : Nat)
    (p : Nat × V → Bool) (hp : ∀ kv ∈ l, kv.1 = k → p kv = true) :
    (l.filter p).filter (fun kv => kv.1 = k) =
      l.filter (fun kv => kv.1 = k) := by
  rw [List.filter_filter]
  apply List.filter_congr
  intro kv hkv
  by_cases hk : kv.1 = k
  · simp [hk, hp kv hkv hk]
  · simp [hk]

theorem filter_k_filter_nil (l : List (Nat × V)) (k : Nat)
    (p : Nat × V → Bool)
    (h : l.filter (fun kv => kv.1 = k) = []) :
    (l.filter p).filter (fun kv => kv.1 = k) = [] := by
  rw [List.filter_filter]
  rw [List.filter_eq_nil_iff] at h ⊢
  intro kv hkv hcon
  have := h kv hkv
  simp only [Bool.and_eq_true, decide_eq_true_eq] at hcon this
  exact this (by simp [hcon.1])

theorem push_ok_keyValues (W : Nat) (h : HeapMap V) (k : Nat) (v : V)
    {s' : HeapMap V} (hwf : WF W h) (hk : k < 2 ^ W)
    (hok : push W h k v = .ok s') :
    keyValues k s' = keyValues k h ++ [v] := by
  obtain ⟨hwf', htop', _, _⟩ := push_ok_spec W h k v hwf hk hok
  rcases htop : h.top with _ | t
  · have hs' : s' = { h with initial := h.initial.push k v,
                             len := h.len + 1, top := none } := by
      simp only [push, htop] at hok
      exact (Except.ok.injEq _ _).mp hok.symm
    subst hs'
    rw [keyValues_top_none hwf' rfl]
    rw [keyValues_top_none hwf htop]
    show ((h.initial.elems ++ [(k, v)]).filter
      (fun kv => kv.1 = k)).map Prod.snd = _
    rw [List.filter_append]
    simp
  · have hkt : k ≤ t := by
      by_contra hgt
      rw [push_error_spec W h k v t htop (by omega)] at hok
      exact Except.noConfusion hok
    have hs' : s' = { push_nocheck W h k v t with len := h.len + 1 } := by
      simp only [push, htop, if_pos hkt] at hok
      exact (Except.ok.injEq _ _).mp hok.symm
    subst hs'
    have hdlen : radix_distance W k t < h.buckets.length := by
      rw [hwf.nbuckets]; exact Nat.lt_succ_of_le (radix_distance_le W k t)
    rw [keyValues_eq_bucket hwf' (by rw [htop']; exact htop) k]
    rw [keyValues_eq_bucket hwf htop k]
    have hbk : bucketAt { push_nocheck W h k v t with len := h.len + 1 }
        (radix_distance W k t) =
        (bucketAt h (radix_distance W k t)).push k v := by
      show bucketAt (push_nocheck W h k v t) (radix_distance W k t) = _
      rw [bucketAt_push_nocheck W h k v t hdlen, if_pos rfl]
    rw [hbk]
    show (((bucketAt h (radix_distance W k t)).elems ++ [(k, v)]).filter
      (fun kv => kv.1 = k)).map Prod.snd = _
    rw [List.filter_append]
    simp

theorem constrain_keyValues (W : Nat) (h : HeapMap V) (hwf : WF W h)
    (k : Nat) (hk : k < 2 ^ W) :
    keyValues k (constrain W h) = keyValues k h := by
  rcases htop : h.top with _ | t
  · by_cases hne : h.initial.elems = []
    · rw [constrain_top_none_empty W h htop hne]
    · obtain ⟨M, hM, ⟨v, hv⟩, hub, hMW, hc_top, _, hc_init, hc_nb, hc_bk⟩ :=
        constrain_initial_spec W h hwf htop hne
      obtain ⟨hwf', _, _, _⟩ := constrain_props_initial W h hwf htop hne
      rw [keyValues_eq_bucket hwf' hc_top k, keyValues_top_none hwf htop k]
      rw [hc_bk, Bucket.pushAll_elems]
      show (((Bucket.empty : Bucket V).elems ++ h.initial.elems.filter
        (fun kv : Nat × V => radix_distance W kv.1 M =
          radix_distance W k M)).filter
          (fun kv : Nat × V => kv.1 = k)).map Prod.snd = _
      rw [show (Bucket.empty : Bucket V).elems = [] from rfl,
        List.nil_append]
      have hsub := filter_k_filter_sub h.initial.elems k
        (fun kv => radix_distance W kv.1 M = radix_distance W k M)
        (by intro kv _ hkv; simp [hkv])
      rw [hsub]
  · rcases hfind : findNonempty h.buckets with _ | i
    · rw [constrain_find_none W h t htop hfind]
    · by_cases hi : i = 0
      · subst hi
        rw [constrain_find_zero W h t htop hfind]
      · obtain ⟨M, hM, ⟨v, hv⟩, hub, hMt, hMW, hMd, hc_top, _, hc_init,
          hc_nb, hc_bk⟩ := constrain_bucket_spec W h t i hwf htop hfind hi
        obtain ⟨hwf', _, _, _⟩ :=
          constrain_props_bucket W h t i hwf htop hfind hi
        obtain ⟨hilen, hine, hjlt⟩ := findNonempty_some h.buckets i hfind
        rcases hwf.top_cases with ⟨hn, _⟩ |
          ⟨t', ht', htW, hinit, hmax, hentries⟩
        · rw [htop] at hn; exact Option.noConfusion hn
        have htt' : t = t' := (Option.some.injEq t t').mp
          (htop.symm.trans ht')
        subst htt'
        rw [keyValues_eq_bucket hwf' hc_top k,
          keyValues_eq_bucket hwf htop k]
        rw [hc_bk, Bucket.pushAll_elems, List.filter_append,
          List.map_append]
        have hsecond : ((((bucketAt h i).elems.filter
            (fun kv => radix_distance W kv.1 M =
              radix_distance W k M)).filter
            (fun kv => kv.1 = k)).map Prod.snd) =
            (((bucketAt h i).elems.filter (fun kv => kv.1 = k)).map
              Prod.snd) := by
          have hsub := filter_k_filter_sub (bucketAt h i).elems k
            (fun kv => radix_distance W kv.1 M = radix_distance W k M)
            (by intro kv _ hkv; simp [hkv])
          rw [hsub]
        rw [hsecond]
        by_cases hcase : radix_distance W k t = i
        · -- key-k entries (if any) live in the drained bucket `i`
          have hfirst : ((if radix_distance W k M = i then Bucket.empty
              else bucketAt h (radix_distance W k M)) :
              Bucket V).elems.filter (fun kv => kv.1 = k) = [] := by
            by_cases hdM : radix_distance W k M = i
            · rw [if_pos hdM]
              rfl
            · rw [if_neg hdM]
              exact filter_k_bucket_nil hwf htop k _ (by omega)
          rw [apply_ite Bucket.elems] at hfirst ⊢
          rw [hfirst, hcase]
          simp
        · -- key-k entries (if any) live in an untouched bucket
          have hsec_nil : (bucketAt h i).elems.filter
              (fun kv => kv.1 = k) = [] :=
            filter_k_bucket_nil hwf htop k i (by omega)
          rw [hsec_nil]
          by_cases hKex : (bucketAt h (radix_distance W k t)).elems.filter
              (fun kv => kv.1 = k) = []
          · rw [hKex]
            have hfirst : ((if radix_distance W k M = i then Bucket.empty
                else bucketAt h (radix_distance W k M)) :
                Bucket V).elems.filter (fun kv => kv.1 = k) = [] := by
              by_cases hdM : radix_distance W k M = i
              · rw [if_pos hdM]
                rfl
              · rw [if_neg hdM]
                by_cases hdd : radix_distance W k M = radix_distance W k t
                · rw [hdd]
                  exact hKex
                · exact filter_k_bucket_nil hwf htop k _ hdd
            rw [apply_ite Bucket.elems] at hfirst ⊢
            rw [hfirst]
            simp
          · -- there is a key-k entry, at distance `dist k t > i` from `t`
            obtain ⟨kv0, hkv0⟩ := List.exists_mem_of_ne_nil _ hKex
            have hkv0m := List.mem_filter.mp hkv0
            have hkv0k : kv0.1 = k := by
              have := hkv0m.2
              simpa using this
            have hkd : radix_distance W k t = radix_distance W k t := rfl
            have hdh : radix_distance W kv0.1 t = radix_distance W k t := by
              rw [hkv0k]
            have hge : ¬ radix_distance W k t < i := by
              intro hlt
              have hemp := hjlt (radix_distance W k t) hlt
              have : kv0 ∈ (bucketAt h (radix_distance W k t)).elems :=
                hkv0m.1
              rw [show (h.buckets.getD (radix_distance W k t)
                Bucket.empty) = bucketAt h (radix_distance W k t)
                from rfl] at hemp
              rw [hemp] at this
              exact List.not_mem_nil kv0 this
            have hgt : i < radix_distance W k t := by omega
            have hstable : radix_distance W k M = radix_distance W k t := by
              have := (hentries (radix_distance W k t) kv0 hkv0m.1).2.2
              rw [hkv0k] at this
              exact dist_stable_of_dist_lt hk hMW htW this hMd hgt
            have hne_i : radix_distance W k M ≠ i := by omega
            rw [apply_ite Bucket.elems, if_neg hne_i, hstable]
            simp

theorem pop_keyValues (W : Nat) (h : HeapMap V) (hwf : WF W h)
    (hc : entryCount h ≠ 0) (k : Nat) (hk : k < 2 ^ W) :
    ∃ e, (pop W h).1 = some e ∧
      (e.1 = k → keyValues k h = keyValues k (pop W h).2 ++ [e.2]) ∧
      (e.1 ≠ k → keyValues k (pop W h).2 = keyValues k h) := by
  obtain ⟨hwf', hperm, hb0f, _, _⟩ := constrain_props W h hwf
  have hkvc : keyValues k (constrain W h) = keyValues k h :=
    constrain_keyValues W h hwf k hk
  have hb0 := hb0f hc
  rcases hwf'.top_cases with ⟨hn, hall⟩ | ⟨t', ht', htW, hinit, hmax, hentries⟩
  · exfalso
    apply hb0
    have hbe := bucketAt_empty_of_forall (constrain W h) hall 0
    rw [hbe]
    rfl
  cases hget : (bucketAt (constrain W h) 0).elems.getLast? with
  | none => exact absurd (List.getLast?_eq_none_iff.mp hget) hb0
  | some e =>
  obtain ⟨ys, hys⟩ := List.getLast?_eq_some_iff.mp hget
  have hemem : e ∈ (bucketAt (constrain W h) 0).elems := by
    rw [hys]; simp
  obtain ⟨heW, het, hed⟩ := hentries 0 e hemem
  have hkey : e.1 = t' := (radix_distance_eq_zero_iff heW htW).mp hed
  have hpop : pop W h = (some e,
      { constrain W h with
        buckets := modifyIdx (constrain W h).buckets 0
          (fun _ => { bucketAt (constrain W h) 0 with
            elems := (bucketAt (constrain W h) 0).elems.dropLast }),
        len := (constrain W h).len - 1 }) := by
    unfold pop Bucket.pop
    rw [hget]
  have hwfp : WF W (pop W h).2 := by
    have happ := (applyOp_WF W h .pop hwf
      (fun _ _ he => HeapOp.noConfusion he)).1
    exact happ
  have htopp : (pop W h).2.top = some t' := by
    rw [hpop]
    exact ht'
  have h0len : 0 < (constrain W h).buckets.length := by
    rw [hwf'.nbuckets]; omega
  have hdrop : (bucketAt (constrain W h) 0).elems.dropLast = ys := by
    rw [hys]; exact List.dropLast_concat
  have hbk' : ∀ j, bucketAt (pop W h).2 j =
      if j = 0 then { bucketAt (constrain W h) 0 with elems := ys }
      else bucketAt (constrain W h) j := by
    intro j
    rw [hpop]
    show (modifyIdx (constrain W h).buckets 0 _).getD j Bucket.empty = _
    by_cases hj : j = 0
    · subst hj
      rw [if_pos rfl, getD_modifyIdx_self _ _ _ _ h0len]
      rw [← hdrop]
    · rw [if_neg hj, getD_modifyIdx_ne _ _ _ _ _ hj]
      rfl
  refine ⟨e, by rw [hpop], ?_, ?_⟩
  · intro hek
    have hkt : k = t' := by rw [← hek, hkey]
    have hd0 : radix_distance W k t' = 0 := by
      rw [hkt]; exact radix_distance_self W t'
    rw [← hkvc, keyValues_eq_bucket hwf' ht' k,
      keyValues_eq_bucket hwfp htopp k, hd0, hbk' 0, if_pos rfl]
    show ((bucketAt (constrain W h) 0).elems.filter
        (fun kv => kv.1 = k)).map Prod.snd =
      (ys.filter (fun kv => kv.1 = k)).map Prod.snd ++ [e.2]
    rw [hys, List.filter_append, List.map_append]
    have hfe : ([e].filter (fun kv : Nat × V => kv.1 = k)) = [e] := by
      simp [hek]
    rw [hfe]
    rfl
  · intro hek
    have hkt : k ≠ t' := by
      intro hcon
      exact hek (by rw [hkey, hcon])
    have hd0 : radix_distance W k t' ≠ 0 := by
      intro hcon
      exact hkt ((radix_distance_eq_zero_iff hk htW).mp hcon)
    rw [← hkvc, keyValues_eq_bucket hwf' ht' k,
      keyValues_eq_bucket hwfp htopp k, hbk' _, if_neg hd0]

theorem drainPops_filter_key (W : Nat) (k : Nat) (hk : k < 2 ^ W) :
    ∀ (fuel : Nat) (h : HeapMap V), WF W h → entryCount h ≤ fuel →
    (drainPops W fuel h).filter (fun kv => kv.1 = k) =
      ((keyValues k h).reverse).map (fun v => (k, v)) := by
  intro fuel
  induction fuel with
  | zero =>
    intro h hwf hcount
    have hc : entryCount h = 0 := by omega
    have hap : allPairs h = [] := List.length_eq_zero.mp hc
    have hkv : keyValues k h = [] := by
      unfold keyValues
      rw [hap]
      rfl
    rw [hkv]
    rfl
  | succ fuel ih =>
    intro h hwf hcount
    by_cases hc : entryCount h = 0
    · have hpop := pop_of_count_zero W h hwf hc
      have hap : allPairs h = [] := List.length_eq_zero.mp hc
      have hkv : keyValues k h = [] := by
        unfold keyValues
        rw [hap]
        rfl
      have hdrain : drainPops W (fuel + 1) h = [] := by
        show (match pop W h with
          | (none, _) => []
          | (some kv, h') => kv :: drainPops W fuel h') = []
        rw [hpop]
      rw [hdrain, hkv]
      rfl
    · obtain ⟨e, h1, _, _, _, _, hcount2, _⟩ := pop_spec W h hwf hc
      obtain ⟨e', h1', hpos, hneg⟩ := pop_keyValues W h hwf hc k hk
      have hee : e' = e := by
        have h2 := h1.symm.trans h1'
        exact ((Option.some.injEq e e').mp h2).symm
      subst hee
      have hwfp : WF W (pop W h).2 :=
        (applyOp_WF W h .pop hwf (fun _ _ he => HeapOp.noConfusion he)).1
      have hps : pop W h = (some e', (pop W h).2) := by
        rw [← h1']
      have hdrain : drainPops W (fuel + 1) h =
          e' :: drainPops W fuel (pop W h).2 := by
        show (match pop W h with
          | (none, _) => []
          | (some kv, h') => kv :: drainPops W fuel h') = _
        rw [hps]
      have hih := ih (pop W h).2 hwfp (by omega)
      rw [hdrain, List.filter_cons]
      by_cases hek : e'.1 = k
      · rw [if_pos (by simp [hek]), hih, hpos hek]
        have hpair : e' = (k, e'.2) := by
          rw [← hek]
        have hrev : ((keyValues k (pop W h).2 ++ [e'.2]).reverse) =
            e'.2 :: (keyValues k (pop W h).2).reverse := by
          rw [List.reverse_append]
          rfl
        rw [hrev, List.map_cons, ← hpair]
      · rw [if_neg (by simp [hek]), hih, hneg hek]

/-- **C8.** Ties resolve LIFO: on any well-formed heap that accepts key
`k`, pushing `(k, a)` and then `(k, b)`, and then draining the heap by
repeated `pop`, the subsequence of pops with key `k` starts with `(k, b)`
followed immediately by `(k, a)` — the most recently pushed entry wins,
so `pop` returns `(k, b)` before it returns `(k, a)`. -/
theorem pop_tie_lifo (W : Nat) (V : Type) (h : HeapMap V) (hwf : WF W h)
    (k : Nat) (hk : k < 2 ^ W) (a b : V)
    (hallow : ∀ t, h.top = some t → k ≤ t) (fuel : Nat)
    (hfuel : entryCount h + 2 ≤ fuel) :
    ∃ rest,
      (drainPops W fuel
        (applyOp W (applyOp W h (.push k a)) (.push k b))).filter
        (fun kv => kv.1 = k) = (k, b) :: (k, a) :: rest := by
  have hok1 : ∃ s1, push W h k a = .ok s1 := by
    rcases htop : h.top with _ | t
    · refine ⟨{ h with initial := h.initial.push k a,
                       len := h.len + 1, top := none }, ?_⟩
      simp [push, htop]
    · refine ⟨{ push_nocheck W h k a t with len := h.len + 1 }, ?_⟩
      simp only [push, htop, if_pos (hallow t htop)]
  obtain ⟨s1, hok1⟩ := hok1
  have happ1 : applyOp W h (.push k a) = s1 := by
    simp [applyOp, hok1]
  obtain ⟨hwf1, htop1, hperm1, _⟩ := push_ok_spec W h k a hwf hk hok1
  have hkv1 : keyValues k s1 = keyValues k h ++ [a] :=
    push_ok_keyValues W h k a hwf hk hok1
  have hok2 : ∃ s2, push W s1 k b = .ok s2 := by
    rcases htop : s1.top with _ | t
    · refine ⟨{ s1 with initial := s1.initial.push k b,
                        len := s1.len + 1, top := none }, ?_⟩
      simp [push, htop]
    · refine ⟨{ push_nocheck W s1 k b t with len := s1.len + 1 }, ?_⟩
      have hht : h.top = some t := by rw [← htop1]; exact htop
      simp only [push, htop, if_pos (hallow t hht)]
  obtain ⟨s2, hok2⟩ := hok2
  have happ2 : applyOp W s1 (.push k b) = s2 := by
    simp [applyOp, hok2]
  obtain ⟨hwf2, _, hperm2, _⟩ := push_ok_spec W s1 k b hwf1 hk hok2
  have hkv2 : keyValues k s2 = (keyValues k h ++ [a]) ++ [b] := by
    rw [push_ok_keyValues W s1 k b hwf1 hk hok2, hkv1]
  have hcount2 : entryCount s2 = entryCount h + 2 := by
    unfold entryCount
    rw [hperm2.length_eq]
    show (allPairs s1).length + 1 = _
    rw [hperm1.length_eq]
    rfl
  have hfil := drainPops_filter_key W k hk fuel s2 hwf2 (by omega)
  rw [happ1, happ2, hfil, hkv2]
  refine ⟨((keyValues k h).reverse).map (fun v => (k, v)), ?_⟩
  rw [List.reverse_append, List.reverse_append]
  rfl

/-- Witness for C8: pushing `(5, 10)` then `(5, 20)` onto a fresh heap and
draining it pops `(5, 20)` strictly before `(5, 10)`. -/
theorem pop_tie_lifo_witness :
    ∃ rest,
      (drainPops 8 2
        (applyOp 8 (applyOp 8 (new Nat 8) (.push 5 10)) (.push 5 20))).filter
        (fun kv => kv.1 = 5) = (5, 20) :: (5, 10) :: rest :=
  pop_tie_lifo 8 Nat (new Nat 8) (WF_new Nat 8) 5 (by decide) 10 20
    (fun t ht => Option.noConfusion ht) 2 (by decide)

/-- Witness for C9: on the concrete heap holding key 9, a second `peek`
agrees with the first and `pop` is unaffected. -/
theorem peek_idempotent_witness :
    peek 8 ((peek 8 (applyOp 8 (new Nat 8) (.push 9 0))).2) =
      peek 8 (applyOp 8 (new Nat 8) (.push 9 0)) ∧
    (pop 8 ((peek 8 (applyOp 8 (new Nat 8) (.push 9 0))).2)).1 =
      (pop 8 (applyOp 8 (new Nat 8) (.push 9 0))).1 :=
  peek_idempotent 8 Nat (applyOp 8 (new Nat 8) (.push 9 0))
    (Reachable_WF (Reachable.push_step _ 9 0 Reachable.fresh (by decide)))

end RadixHeap
